import Mathlib

/-!
Verification of the merkledb bit-packed key ("Path") codec, the proof
iterator, and the node encoding of the avalanchego merkledb package.

The Go source is shallowly embedded:
* `Key` mirrors `merkledb.Key` (a byte string plus an explicit bit length);
  bytes are modelled as `Nat` with explicit `% 256` wherever Go byte
  arithmetic truncates, and the byte string as `List Nat`.
* Go `copy`, slice writes and the helper `shiftCopy` are modelled as pure
  list transformations.
* Names: Go `Key.HasPrefix` is `hasPfx`, `Key.HasStrictPrefix` is
  `hasStrictPfx`, `Key.iteratedHasPrefix` is `iteratedHasPfx`,
  `Key.Append` is `keyAppend`, `Key.AppendExtend` is `appendExtend`,
  `Key.Skip` is `keySkip`, `Key.Take` is `keyTake`, `Key.Token` is
  `keyToken`, `Key.Less` is `keyLess`.
-/

/-- Number of bytes needed to store `bits` bits (Go `bytesNeeded`). -/
def bytesNeeded (bits : Nat) : Nat :=
  bits / 8 + if bits % 8 = 0 then 0 else 1

/-- Dual of a bit index inside a byte (Go `dualBitIndex`). -/
def dualBitIndex (shift : Nat) : Nat := (8 - shift) % 8

/-- Go `merkledb.Token`: a token value together with its size in bits. -/
structure Token where
  length : Nat
  value : Nat
deriving DecidableEq, Repr

/-- Go `merkledb.Key`: the raw byte buffer (`value`, a Go string) and the
number of meaningful bits (`length`). -/
structure Key where
  value : List Nat
  length : Nat
deriving DecidableEq, Repr

/-- Go `toKey` / `ToKey`: a whole-byte key (the clone in `ToKey` is
irrelevant for a pure model). -/
def toKey (keyBytes : List Nat) : Key :=
  ⟨keyBytes, keyBytes.length * 8⟩

/-- Bit `i` of a key's byte buffer, MSB-first inside each byte (bit 0 is the
most significant bit of byte 0).  Out-of-buffer reads give `false`, matching
a zero byte. -/
def kbit (k : Key) (i : Nat) : Bool :=
  Nat.testBit (k.value.getD (i / 8) 0) (7 - i % 8)

/-- The semantic content of a key: its first `length` buffer bits. -/
def keyBits (k : Key) : List Bool :=
  (List.range k.length).map (kbit k)

/-- Bit `j` (MSB-first) of a token's `length`-bit value. -/
def tokenBit (t : Token) (j : Nat) : Bool :=
  Nat.testBit t.value (t.length - 1 - j)

/-- The bit sequence a token contributes when appended. -/
def tokenBits (t : Token) : List Bool :=
  (List.range t.length).map (tokenBit t)

/-- Representation invariant of `Key`: the buffer holds exactly
`bytesNeeded length` bytes, every buffer entry is a byte, and every buffer
bit at position `≥ length` is zero. -/
structure KeyWF (k : Key) : Prop where
  vlen : k.value.length = bytesNeeded k.length
  vbytes : ∀ j, k.value.getD j 0 < 256
  vtrail : ∀ i, k.length ≤ i → kbit k i = false

/-- Go `strings.HasPrefix s p`. -/
def strHasPfx (s p : List Nat) : Bool :=
  decide (s.take p.length = p)

/-- Go `Key.HasPrefix`: `pfx` is a bit prefix of `k` or equal to it,
masking the partially used final byte of `pfx`. -/
def hasPfx (k pfx : Key) : Bool :=
  if k.length < pfx.length then false
  else if pfx.length % 8 = 0 then strHasPfx k.value pfx.value
  else
    let mask := 255 >>> (pfx.length % 8)
    let pfxRemainderTokens := (pfx.value.getD (pfx.value.length - 1) 0) ||| mask
    let remainderTokens := (k.value.getD (pfx.value.length - 1) 0) ||| mask
    if pfxRemainderTokens ≠ remainderTokens then false
    else strHasPfx k.value (pfx.value.take (pfx.value.length - 1))

/-- Go `Key.HasStrictPrefix`: a prefix that is not equal. -/
def hasStrictPfx (k pfx : Key) : Bool :=
  decide (k ≠ pfx) && hasPfx k pfx

/-- Go `Key.Token`: extract `tokenBitSize` bits at `bitIndex`, right-aligned
in the returned byte. -/
def keyToken (k : Key) (bitIndex tokenBitSize : Nat) : Nat :=
  ((k.value.getD (bitIndex / 8) 0) >>> dualBitIndex ((bitIndex + tokenBitSize) % 8))
    &&& (255 >>> dualBitIndex tokenBitSize)

/-- Go `copy(dst, src)` on byte slices: overwrite the first
`min |dst| |src|` entries of `dst` with those of `src`. -/
def goCopy (dst src : List Nat) : List Nat :=
  src.take dst.length ++ dst.drop src.length

/-- Go `buffer[len(buffer)-1] |= v`. -/
def orLast (l : List Nat) (v : Nat) : List Nat :=
  l.set (l.length - 1) ((l.getD (l.length - 1) 0) ||| v)

/-- Go `Key.appendIntoBuffer` on a zeroed buffer of `bufLen` bytes (both Go
call sites pass a freshly made, zeroed buffer). -/
def appendIntoBuffer (k : Key) (bufLen : Nat) (t : Token) : List Nat :=
  orLast (goCopy (List.replicate bufLen 0) k.value)
    ((t.value <<< dualBitIndex ((k.length + t.length) % 8)) % 256)

/-- Go `Key.Append`. -/
def keyAppend (k : Key) (t : Token) : Key :=
  ⟨appendIntoBuffer k (bytesNeeded (k.length + t.length)) t, k.length + t.length⟩

/-- Go `shiftCopy(dst, src, shift)`: copy `src` into `dst` shifted left by
`shift` bits, merging across byte boundaries; entries of `dst` beyond the
written range keep their value.  (Go indexes `src[0]` unconditionally when
`dst` is non-empty, so it assumes a non-empty `src` there; every call site
guarantees it.) -/
def shiftCopy (dst src : List Nat) (shift : Nat) : List Nat :=
  (List.range dst.length).map fun i =>
    if i + 1 < src.length then
      ((src.getD i 0) <<< shift) % 256 ||| ((src.getD (i + 1) 0) >>> dualBitIndex shift)
    else if i < src.length then ((src.getD i 0) <<< shift) % 256
    else dst.getD i 0

/-- Go `Key.AppendExtend`: append one token, then concatenate a whole second
key, bit-shifting it to the new boundary. -/
def appendExtend (k : Key) (t : Token) (ext : Key) : Key :=
  let appendBytes := bytesNeeded (k.length + t.length)
  let totalBitLength := k.length + t.length + ext.length
  let head := appendIntoBuffer k appendBytes t
  let buffer := head ++ List.replicate (bytesNeeded totalBitLength - appendBytes) 0
  let bitsRemainder := (k.length + t.length) % 8
  if ext.length = 0 then ⟨buffer, totalBitLength⟩
  else if bitsRemainder = 0 then
    ⟨buffer.take appendBytes ++ goCopy (buffer.drop appendBytes) ext.value, totalBitLength⟩
  else
    let buffer2 := buffer.set (appendBytes - 1)
      ((buffer.getD (appendBytes - 1) 0) ||| ((ext.value.getD 0 0) >>> bitsRemainder))
    ⟨buffer2.take appendBytes ++
       shiftCopy (buffer2.drop appendBytes) ext.value (dualBitIndex bitsRemainder),
     totalBitLength⟩

/-- Go `Key.Skip`. -/
def keySkip (k : Key) (bitsToSkip : Nat) : Key :=
  if k.length ≤ bitsToSkip then ⟨[], 0⟩
  else
    let v := k.value.drop (bitsToSkip / 8)
    if bitsToSkip % 8 = 0 then ⟨v, k.length - bitsToSkip⟩
    else
      ⟨shiftCopy (List.replicate (bytesNeeded (k.length - bitsToSkip)) 0) v (bitsToSkip % 8),
       k.length - bitsToSkip⟩

/-- Go `Key.Take`. -/
def keyTake (k : Key) (bitsToTake : Nat) : Key :=
  if k.length ≤ bitsToTake then k
  else if bitsToTake % 8 = 0 then ⟨k.value.take (bitsToTake / 8), bitsToTake⟩
  else
    let buffer := goCopy (List.replicate (bytesNeeded bitsToTake) 0) k.value
    ⟨buffer.set (buffer.length - 1)
       ((buffer.getD (buffer.length - 1) 0) &&& ((255 <<< dualBitIndex (bitsToTake % 8)) % 256)),
     bitsToTake⟩

/-- Lexicographic order on Go byte strings (`a < b` on Go strings). -/
def listLtB : List Nat → List Nat → Bool
  | _, [] => false
  | [], _ :: _ => true
  | a :: as, b :: bs => decide (a < b) || (decide (a = b) && listLtB as bs)

/-- Go `Key.Less`. -/
def keyLess (k other : Key) : Bool :=
  listLtB k.value other.value || (decide (k.value = other.value) && decide (k.length < other.length))

/-- Go `Key.Greater`. -/
def keyGreater (k other : Key) : Bool :=
  listLtB other.value k.value || (decide (k.value = other.value) && decide (other.length < k.length))

/-- Go `Key.iteratedHasPrefix`: token-by-token prefix check after skipping
`bitsToSkip` bits.  The Go guard `k.length-bitsToSkip < prefix.length` is a
signed comparison, hence the cast through `Int`; the Go loop steps `i` by
`tokenBitSize` while `i < prefix.length`, which for a positive
`tokenBitSize` runs exactly `⌈prefix.length / tokenBitSize⌉` times. -/
def iteratedHasPfx (k pfx : Key) (bitsToSkip tokenBitSize : Nat) : Bool :=
  if (k.length : Int) - (bitsToSkip : Int) < (pfx.length : Int) then false
  else
    (List.range ((pfx.length + tokenBitSize - 1) / tokenBitSize)).all fun j =>
      keyToken k (bitsToSkip + j * tokenBitSize) tokenBitSize
        == keyToken pfx (j * tokenBitSize) tokenBitSize

/-! ### List-level helper lemmas -/

theorem getD_eq_zero_of_le {l : List Nat} {i : Nat} (h : l.length ≤ i) : l.getD i 0 = 0 := by
  rw [List.getD_eq_getElem?_getD, List.getElem?_eq_none h]
  rfl

theorem getD_replicate_zero (n i : Nat) : (List.replicate n (0 : Nat)).getD i 0 = 0 := by
  rw [List.getD_eq_getElem?_getD, List.getElem?_replicate]
  split <;> rfl

theorem getD_drop (l : List Nat) (n i : Nat) : (l.drop n).getD i 0 = l.getD (n + i) 0 := by
  rw [List.getD_eq_getElem?_getD, List.getElem?_drop, List.getD_eq_getElem?_getD]

theorem getD_take (l : List Nat) (n i : Nat) :
    (l.take n).getD i 0 = if i < n then l.getD i 0 else 0 := by
  by_cases h : i < n
  · rw [if_pos h, List.getD_eq_getElem?_getD, List.getElem?_take, if_pos h,
      List.getD_eq_getElem?_getD]
  · rw [if_neg h]
    refine getD_eq_zero_of_le ?_
    simp only [List.length_take]
    omega

theorem getD_append (l r : List Nat) (i : Nat) :
    (l ++ r).getD i 0 = if i < l.length then l.getD i 0 else r.getD (i - l.length) 0 := by
  rw [List.getD_eq_getElem?_getD, List.getElem?_append]
  split <;> rw [List.getD_eq_getElem?_getD]

theorem getD_set (l : List Nat) (i j v : Nat) :
    (l.set i v).getD j 0 = if i = j ∧ i < l.length then v else l.getD j 0 := by
  by_cases hij : i = j
  · subst hij
    by_cases hl : i < l.length
    · rw [if_pos ⟨rfl, hl⟩, List.getD_eq_getElem?_getD, List.getElem?_set_self]
      · rfl
      · exact hl
    · rw [if_neg (by omega), List.set_eq_of_length_le (Nat.le_of_not_lt hl)]
  · rw [if_neg (by omega), List.getD_eq_getElem?_getD, List.getElem?_set_ne hij,
      List.getD_eq_getElem?_getD]

theorem goCopy_length (dst src : List Nat) : (goCopy dst src).length = dst.length := by
  simp only [goCopy, List.length_append, List.length_take, List.length_drop]
  omega

theorem goCopyZero_getD (n : Nat) (src : List Nat) (j : Nat) :
    (goCopy (List.replicate n 0) src).getD j 0 = if j < n then src.getD j 0 else 0 := by
  unfold goCopy
  rw [getD_append]
  simp only [List.length_take, List.length_replicate, getD_take, getD_drop, getD_replicate_zero]
  by_cases h1 : j < min n src.length
  · rw [if_pos h1]
  · rw [if_neg h1]
    by_cases h2 : j < n
    · have hs : src.length ≤ j := by omega
      rw [if_pos h2, getD_eq_zero_of_le hs]
    · rw [if_neg h2]

theorem shiftCopy_length (dst src : List Nat) (s : Nat) :
    (shiftCopy dst src s).length = dst.length := by
  simp [shiftCopy]

theorem getD_range_map (f : Nat → Nat) (n j : Nat) :
    (((List.range n).map f).getD j 0) = if j < n then f j else 0 := by
  by_cases h : j < n
  · rw [if_pos h, List.getD_eq_getElem?_getD, List.getElem?_map, List.getElem?_range h]
    rfl
  · rw [if_neg h]
    refine getD_eq_zero_of_le ?_
    simpa using Nat.le_of_not_lt h

theorem shiftCopy_getD (dst src : List Nat) (s j : Nat) :
    (shiftCopy dst src s).getD j 0 =
      if j < dst.length then
        (if j + 1 < src.length then
          ((src.getD j 0) <<< s) % 256 ||| ((src.getD (j + 1) 0) >>> dualBitIndex s)
        else if j < src.length then ((src.getD j 0) <<< s) % 256
        else dst.getD j 0)
      else 0 := by
  unfold shiftCopy
  rw [getD_range_map]

/-! ### Arithmetic and bit-access helpers -/

theorem bytesNeeded_spec (n : Nat) : n ≤ 8 * bytesNeeded n ∧ 8 * bytesNeeded n < n + 8 := by
  unfold bytesNeeded
  split <;> omega

theorem bytesNeeded_mono {a b : Nat} (h : a ≤ b) : bytesNeeded a ≤ bytesNeeded b := by
  unfold bytesNeeded
  split <;> split <;> omega

theorem div8_lt_bytesNeeded {i n : Nat} (h : i < n) : i / 8 < bytesNeeded n := by
  unfold bytesNeeded
  split <;> omega

theorem testBit_shl_mod256 (x s m : Nat) (hm : m < 8) :
    ((x <<< s) % 256).testBit m = (decide (s ≤ m) && x.testBit (m - s)) := by
  rw [show (256 : Nat) = 2 ^ 8 from rfl, Nat.testBit_mod_two_pow]
  simp [hm, Nat.testBit_shiftLeft]

theorem testBit_shr (x s m : Nat) : (x >>> s).testBit m = x.testBit (s + m) := by
  simp [Nat.testBit_shiftRight]

theorem testBit_tokval_high {v n m : Nat} (hv : v < 2 ^ n) (hm : n ≤ m) : v.testBit m = false :=
  Nat.testBit_eq_false_of_lt
    (lt_of_lt_of_le hv (Nat.pow_le_pow_right (Nat.zero_lt_succ 1) hm))

theorem testBit_byte_high {x m : Nat} (hx : x < 256) (hm : 8 ≤ m) : x.testBit m = false :=
  testBit_tokval_high (n := 8) hx hm

/-- Unfold `kbit` in terms of the byte index and intra-byte offset. -/
theorem kbit_eq (k : Key) (i : Nat) :
    kbit k i = (k.value.getD (i / 8) 0).testBit (7 - i % 8) := rfl

/-! ### `toKey` -/

theorem wf_toKey (bs : List Nat) (h : ∀ j, bs.getD j 0 < 256) : KeyWF (toKey bs) := by
  refine ⟨?_, h, ?_⟩
  · show bs.length = bytesNeeded (bs.length * 8)
    unfold bytesNeeded
    split <;> omega
  · intro i hi
    have hlen : bs.length ≤ i / 8 := by
      simp only [toKey] at hi
      omega
    rw [kbit_eq]
    show (bs.getD (i/8) 0).testBit (7 - i % 8) = false
    rw [getD_eq_zero_of_le hlen]
    exact Nat.zero_testBit _

theorem kbit_toKey (bs : List Nat) (i : Nat) :
    kbit (toKey bs) i = (bs.getD (i / 8) 0).testBit (7 - i % 8) := rfl

/-! ### `keyAppend` -/

theorem keyAppend_getD (k : Key) (t : Token) (j : Nat) :
    (keyAppend k t).value.getD j 0 =
      if j + 1 = bytesNeeded (k.length + t.length) then
        (k.value.getD j 0) ||| ((t.value <<< dualBitIndex ((k.length + t.length) % 8)) % 256)
      else if j < bytesNeeded (k.length + t.length) then k.value.getD j 0
      else 0 := by
  unfold keyAppend appendIntoBuffer orLast
  set B := bytesNeeded (k.length + t.length) with hB
  set v := (t.value <<< dualBitIndex ((k.length + t.length) % 8)) % 256 with hv
  have hlen : (goCopy (List.replicate B 0) k.value).length = B := by
    rw [goCopy_length, List.length_replicate]
  rw [getD_set, hlen]
  simp only [goCopyZero_getD]
  by_cases hj : j + 1 = B
  · have h1 : B - 1 = j ∧ B - 1 < B := by omega
    rw [if_pos h1, if_pos (show B - 1 < B by omega), if_pos hj, h1.1]
  · have h1 : ¬(B - 1 = j ∧ B - 1 < B) := by omega
    rw [if_neg h1, if_neg hj]

theorem kbit_keyAppend_low {k : Key} {t : Token} (hk : KeyWF k) (hv : t.value < 2 ^ t.length)
    {i : Nat} (hi : i < k.length) : kbit (keyAppend k t) i = kbit k i := by
  rw [kbit_eq, kbit_eq, keyAppend_getD]
  set B := bytesNeeded (k.length + t.length) with hB
  have hBtot := bytesNeeded_spec (k.length + t.length)
  have hjB : i / 8 < B := div8_lt_bytesNeeded (by omega)
  by_cases hj : i / 8 + 1 = B
  · rw [if_pos hj, Nat.testBit_or]
    have hbit : ((t.value <<< dualBitIndex ((k.length + t.length) % 8)) % 256).testBit
        (7 - i % 8) = false := by
      rw [testBit_shl_mod256 _ _ _ (by omega)]
      by_cases hle : dualBitIndex ((k.length + t.length) % 8) ≤ 7 - i % 8
      · have hd : dualBitIndex ((k.length + t.length) % 8) =
            8 * B - (k.length + t.length) := by
          unfold dualBitIndex
          omega
        have : t.length ≤ 7 - i % 8 - dualBitIndex ((k.length + t.length) % 8) := by
          omega
        simp [hle, testBit_tokval_high hv this]
      · simp [hle]
    rw [hbit, Bool.or_false]
  · rw [if_neg hj, if_pos hjB]

theorem kbit_keyAppend_tok {k : Key} {t : Token} (hk : KeyWF k) (hv : t.value < 2 ^ t.length)
    (hns : k.length % 8 + t.length ≤ 8) {i : Nat} (hi1 : k.length ≤ i)
    (hi2 : i < k.length + t.length) : kbit (keyAppend k t) i = tokenBit t (i - k.length) := by
  rw [kbit_eq, keyAppend_getD]
  set B := bytesNeeded (k.length + t.length) with hB
  have hBtot := bytesNeeded_spec (k.length + t.length)
  have hj : i / 8 + 1 = B := by omega
  rw [if_pos hj, Nat.testBit_or]
  have hkbit : (k.value.getD (i / 8) 0).testBit (7 - i % 8) = false := by
    have := hk.vtrail i hi1
    rw [kbit_eq] at this
    exact this
  rw [hkbit, Bool.false_or, testBit_shl_mod256 _ _ _ (by omega)]
  have hd : dualBitIndex ((k.length + t.length) % 8) = 8 * B - (k.length + t.length) := by
    unfold dualBitIndex
    omega
  have hle : dualBitIndex ((k.length + t.length) % 8) ≤ 7 - i % 8 := by omega
  have harg : 7 - i % 8 - dualBitIndex ((k.length + t.length) % 8) =
      t.length - 1 - (i - k.length) := by omega
  rw [harg]
  simp [hle, tokenBit]

theorem kbit_keyAppend_trail {k : Key} {t : Token} (hk : KeyWF k)
    {i : Nat} (hi : k.length + t.length ≤ i) : kbit (keyAppend k t) i = false := by
  rw [kbit_eq, keyAppend_getD]
  set B := bytesNeeded (k.length + t.length) with hB
  have hBtot := bytesNeeded_spec (k.length + t.length)
  by_cases hj : i / 8 + 1 = B
  · rw [if_pos hj, Nat.testBit_or]
    have hkbit : (k.value.getD (i / 8) 0).testBit (7 - i % 8) = false := by
      have := hk.vtrail i (by omega)
      rw [kbit_eq] at this
      exact this
    rw [hkbit, Bool.false_or, testBit_shl_mod256 _ _ _ (by omega)]
    have hd : dualBitIndex ((k.length + t.length) % 8) = 8 * B - (k.length + t.length) := by
      unfold dualBitIndex
      omega
    have hle : ¬(dualBitIndex ((k.length + t.length) % 8) ≤ 7 - i % 8) := by omega
    simp [hle]
  · by_cases hj2 : i / 8 < B
    · rw [if_neg hj, if_pos hj2]
      have := hk.vtrail i (by omega)
      rw [kbit_eq] at this
      exact this
    · rw [if_neg hj, if_neg hj2]
      exact Nat.zero_testBit _

theorem wf_keyAppend {k : Key} {t : Token} (hk : KeyWF k) (hv : t.value < 2 ^ t.length) :
    KeyWF (keyAppend k t) := by
  refine ⟨?_, ?_, ?_⟩
  · show (keyAppend k t).value.length = bytesNeeded (k.length + t.length)
    unfold keyAppend appendIntoBuffer orLast
    simp only [List.length_set, goCopy_length, List.length_replicate]
  · intro j
    rw [keyAppend_getD]
    split
    · exact Nat.or_lt_two_pow (n := 8) (hk.vbytes j) (Nat.mod_lt _ (by norm_num))
    · split
      · exact hk.vbytes j
      · norm_num
  · intro i hi
    exact kbit_keyAppend_trail hk hi

/-! ### `keySkip` -/

theorem kbit_keySkip {k : Key} (hk : KeyWF k) (n i : Nat) :
    kbit (keySkip k n) i = kbit k (n + i) := by
  simp only [keySkip]
  by_cases h1 : k.length ≤ n
  · rw [if_pos h1, hk.vtrail (n + i) (by omega), kbit_eq]
    rw [getD_eq_zero_of_le (by simp : ([] : List Nat).length ≤ i / 8)]
    exact Nat.zero_testBit _
  · rw [if_neg h1]
    by_cases h2 : n % 8 = 0
    · rw [if_pos h2, kbit_eq, kbit_eq]
      simp only [getD_drop]
      have e1 : n / 8 + i / 8 = (n + i) / 8 := by omega
      have e2 : i % 8 = (n + i) % 8 := by omega
      rw [e1, e2]
    · rw [if_neg h2, kbit_eq, kbit_eq]
      simp only [shiftCopy_getD, List.length_replicate, getD_drop, getD_replicate_zero]
      have hs1 : 0 < n % 8 := by omega
      have hs8 : n % 8 < 8 := by omega
      have hdual : dualBitIndex (n % 8) = 8 - n % 8 := by
        unfold dualBitIndex
        omega
      have hsrc : (k.value.drop (n / 8)).length = k.value.length - n / 8 := by
        simp
      have hvlen := hk.vlen
      have hBspec := bytesNeeded_spec (k.length - n)
      have hKspec := bytesNeeded_spec k.length
      by_cases hj : i / 8 < bytesNeeded (k.length - n)
      · rw [if_pos hj]
        by_cases hc1 : i / 8 + 1 < (k.value.drop (n / 8)).length
        · rw [if_pos hc1]
          rw [hsrc] at hc1
          rw [Nat.testBit_or, testBit_shl_mod256 _ _ _ (by omega), testBit_shr, hdual]
          by_cases hb : n % 8 + i % 8 < 8
          · have e1 : (n + i) / 8 = n / 8 + i / 8 := by omega
            have ht2 : (k.value.getD (n / 8 + (i / 8 + 1)) 0).testBit
                (8 - n % 8 + (7 - i % 8)) = false :=
              testBit_byte_high (hk.vbytes _) (by omega)
            have hle : n % 8 ≤ 7 - i % 8 := by omega
            have e3 : 7 - i % 8 - n % 8 = 7 - (n + i) % 8 := by omega
            rw [ht2, Bool.or_false, decide_eq_true hle, Bool.true_and, e3, e1]
          · have e1 : (n + i) / 8 = n / 8 + (i / 8 + 1) := by omega
            have e2 : 8 - n % 8 + (7 - i % 8) = 7 - (n + i) % 8 := by omega
            have hle : ¬(n % 8 ≤ 7 - i % 8) := by omega
            rw [decide_eq_false hle, Bool.false_and, Bool.false_or, e1, e2]
        · rw [if_neg hc1]
          rw [hsrc] at hc1
          by_cases hc2 : i / 8 < (k.value.drop (n / 8)).length
          · rw [if_pos hc2]
            rw [hsrc] at hc2
            rw [testBit_shl_mod256 _ _ _ (by omega)]
            by_cases hb : n % 8 + i % 8 < 8
            · have e1 : (n + i) / 8 = n / 8 + i / 8 := by omega
              have hle : n % 8 ≤ 7 - i % 8 := by omega
              have e3 : 7 - i % 8 - n % 8 = 7 - (n + i) % 8 := by omega
              rw [decide_eq_true hle, Bool.true_and, e3, e1]
            · have e1 : k.value.length ≤ (n + i) / 8 := by omega
              have hle : ¬(n % 8 ≤ 7 - i % 8) := by omega
              rw [getD_eq_zero_of_le e1, Nat.zero_testBit, decide_eq_false hle, Bool.false_and]
          · rw [if_neg hc2]
            rw [hsrc] at hc2
            have e1 : k.value.length ≤ (n + i) / 8 := by omega
            rw [getD_eq_zero_of_le e1, Nat.zero_testBit, Nat.zero_testBit]
      · rw [if_neg hj]
        have : k.length ≤ n + i := by omega
        have := hk.vtrail (n + i) this
        rw [kbit_eq] at this
        rw [this]
        exact Nat.zero_testBit _

theorem keySkip_length (k : Key) (n : Nat) : (keySkip k n).length = k.length - n := by
  simp only [keySkip]
  by_cases h1 : k.length ≤ n
  · rw [if_pos h1]
    show 0 = k.length - n
    omega
  · rw [if_neg h1]
    by_cases h2 : n % 8 = 0
    · rw [if_pos h2]
    · rw [if_neg h2]

theorem shiftRight_lt_256 {y : Nat} (hy : y < 256) (s : Nat) : y >>> s < 256 :=
  lt_of_le_of_lt (by rw [Nat.shiftRight_eq_div_pow]; exact Nat.div_le_self _ _) hy

theorem wf_keySkip {k : Key} (hk : KeyWF k) (n : Nat) : KeyWF (keySkip k n) := by
  refine ⟨?_, ?_, ?_⟩
  · rw [keySkip_length]
    simp only [keySkip]
    by_cases h1 : k.length ≤ n
    · rw [if_pos h1]
      show 0 = bytesNeeded (k.length - n)
      unfold bytesNeeded
      split <;> omega
    · rw [if_neg h1]
      by_cases h2 : n % 8 = 0
      · rw [if_pos h2]
        show (k.value.drop (n / 8)).length = bytesNeeded (k.length - n)
        rw [List.length_drop, hk.vlen]
        unfold bytesNeeded
        split <;> split <;> omega
      · rw [if_neg h2]
        show (shiftCopy _ _ _).length = bytesNeeded (k.length - n)
        rw [shiftCopy_length, List.length_replicate]
  · intro j
    simp only [keySkip]
    by_cases h1 : k.length ≤ n
    · rw [if_pos h1]
      show (([] : List Nat).getD j 0) < 256
      rw [getD_eq_zero_of_le (by simp)]
      norm_num
    · rw [if_neg h1]
      by_cases h2 : n % 8 = 0
      · rw [if_pos h2]
        show ((k.value.drop (n / 8)).getD j 0) < 256
        rw [getD_drop]
        exact hk.vbytes _
      · rw [if_neg h2]
        show ((shiftCopy _ _ _).getD j 0) < 256
        rw [shiftCopy_getD]
        split
        · split
          · exact Nat.or_lt_two_pow (n := 8) (Nat.mod_lt _ (by norm_num))
              (shiftRight_lt_256 (by rw [getD_drop]; exact hk.vbytes _) _)
          · split
            · exact Nat.mod_lt _ (by norm_num)
            · rw [getD_replicate_zero]
              norm_num
        · norm_num
  · intro i hi
    rw [keySkip_length] at hi
    rw [kbit_keySkip hk]
    exact hk.vtrail _ (by omega)

/-! ### `keyTake` -/

theorem keyTake_length (k : Key) (n : Nat) : (keyTake k n).length = min n k.length := by
  simp only [keyTake]
  by_cases h1 : k.length ≤ n
  · rw [if_pos h1]
    omega
  · rw [if_neg h1]
    by_cases h2 : n % 8 = 0
    · rw [if_pos h2]
      show n = min n k.length
      omega
    · rw [if_neg h2]
      show n = min n k.length
      omega

theorem kbit_keyTake {k : Key} (hk : KeyWF k) (n i : Nat) :
    kbit (keyTake k n) i = if i < min n k.length then kbit k i else false := by
  simp only [keyTake]
  by_cases h1 : k.length ≤ n
  · rw [if_pos h1]
    by_cases hi : i < min n k.length
    · rw [if_pos hi]
    · rw [if_neg hi]
      exact hk.vtrail i (by omega)
  · rw [if_neg h1]
    have hmin : min n k.length = n := by omega
    rw [hmin]
    by_cases h2 : n % 8 = 0
    · rw [if_pos h2, kbit_eq]
      show ((k.value.take (n / 8)).getD (i / 8) 0).testBit (7 - i % 8) = _
      rw [getD_take]
      by_cases hi : i < n
      · rw [if_pos (by omega : i / 8 < n / 8), if_pos hi, kbit_eq]
      · rw [if_neg (by omega : ¬(i / 8 < n / 8)), if_neg hi]
        exact Nat.zero_testBit _
    · rw [if_neg h2, kbit_eq]
      have hlen : (goCopy (List.replicate (bytesNeeded n) 0) k.value).length = bytesNeeded n := by
        rw [goCopy_length, List.length_replicate]
      rw [hlen, getD_set, hlen]
      simp only [goCopyZero_getD]
      have hBspec := bytesNeeded_spec n
      by_cases hj : bytesNeeded n - 1 = i / 8 ∧ bytesNeeded n - 1 < bytesNeeded n
      · rw [if_pos hj]
        rw [if_pos (show bytesNeeded n - 1 < bytesNeeded n by omega)]
        rw [Nat.testBit_and, hj.1]
        have hmask : ((255 <<< dualBitIndex (n % 8)) % 256).testBit (7 - i % 8)
            = decide (i % 8 < n % 8) := by
          rw [testBit_shl_mod256 _ _ _ (by omega)]
          have hd : dualBitIndex (n % 8) = 8 - n % 8 := by
            unfold dualBitIndex
            omega
          rw [hd]
          by_cases hb : 8 - n % 8 ≤ 7 - i % 8
          · rw [decide_eq_true hb, Bool.true_and]
            rw [show (255 : Nat) = 2 ^ 8 - 1 from rfl, Nat.testBit_two_pow_sub_one]
            have : 7 - i % 8 - (8 - n % 8) < 8 := by omega
            rw [decide_eq_true this, decide_eq_true (show i % 8 < n % 8 by omega)]
          · rw [decide_eq_false hb, Bool.false_and,
              decide_eq_false (show ¬(i % 8 < n % 8) by omega)]
        rw [hmask]
        by_cases hi : i < n
        · rw [if_pos hi, decide_eq_true (show i % 8 < n % 8 by omega), Bool.and_true, kbit_eq]
        · rw [if_neg hi, decide_eq_false (show ¬(i % 8 < n % 8) by omega), Bool.and_false]
      · rw [if_neg hj]
        by_cases hj2 : i / 8 < bytesNeeded n
        · rw [if_pos hj2]
          rw [if_pos (show i < n by omega), kbit_eq]
        · rw [if_neg hj2]
          rw [if_neg (show ¬(i < n) by omega)]
          exact Nat.zero_testBit _

theorem wf_keyTake {k : Key} (hk : KeyWF k) (n : Nat) : KeyWF (keyTake k n) := by
  refine ⟨?_, ?_, ?_⟩
  · rw [keyTake_length]
    simp only [keyTake]
    by_cases h1 : k.length ≤ n
    · rw [if_pos h1, hk.vlen]
      have : min n k.length = k.length := by omega
      rw [this]
    · rw [if_neg h1]
      have hmin : min n k.length = n := by omega
      rw [hmin]
      by_cases h2 : n % 8 = 0
      · rw [if_pos h2]
        show (k.value.take (n / 8)).length = bytesNeeded n
        rw [List.length_take, hk.vlen]
        unfold bytesNeeded
        rw [if_pos h2]
        split <;> omega
      · rw [if_neg h2]
        show ((goCopy _ _).set _ _).length = bytesNeeded n
        rw [List.length_set, goCopy_length, List.length_replicate]
  · intro j
    simp only [keyTake]
    by_cases h1 : k.length ≤ n
    · rw [if_pos h1]
      exact hk.vbytes j
    · rw [if_neg h1]
      by_cases h2 : n % 8 = 0
      · rw [if_pos h2]
        show ((k.value.take (n / 8)).getD j 0) < 256
        rw [getD_take]
        split
        · exact hk.vbytes j
        · norm_num
      · rw [if_neg h2]
        show (((goCopy _ _).set _ _).getD j 0) < 256
        rw [getD_set]
        split
        · refine lt_of_le_of_lt Nat.and_le_left ?_
          rw [goCopyZero_getD]
          split
          · exact hk.vbytes _
          · norm_num
        · rw [goCopyZero_getD]
          split
          · exact hk.vbytes j
          · norm_num
  · intro i hi
    rw [keyTake_length] at hi
    rw [kbit_keyTake hk, if_neg (by omega)]

/-! ### `appendExtend` -/

theorem appendIntoBuffer_length (k : Key) (bufLen : Nat) (t : Token) :
    (appendIntoBuffer k bufLen t).length = bufLen := by
  unfold appendIntoBuffer orLast
  rw [List.length_set, goCopy_length, List.length_replicate]

theorem goCopy_getD (dst src : List Nat) (j : Nat) :
    (goCopy dst src).getD j 0 =
      if j < min dst.length src.length then src.getD j 0 else dst.getD j 0 := by
  unfold goCopy
  rw [getD_append, List.length_take]
  by_cases h : j < min dst.length src.length
  · rw [if_pos h, if_pos h, getD_take, if_pos (by omega : j < dst.length)]
  · rw [if_neg h, if_neg h, getD_drop]
    by_cases h2 : src.length ≤ dst.length
    · have : min dst.length src.length = src.length := by omega
      rw [this] at h ⊢
      have : src.length + (j - src.length) = j := by omega
      rw [this]
    · have hmin : min dst.length src.length = dst.length := by omega
      rw [hmin] at h ⊢
      rw [getD_eq_zero_of_le (l := dst) (by omega), getD_eq_zero_of_le (l := dst) (by omega)]

theorem appendExtend_length (k : Key) (t : Token) (ext : Key) :
    (appendExtend k t ext).length = k.length + t.length + ext.length := by
  simp only [appendExtend]
  split
  · rfl
  · split
    · rfl
    · rfl

set_option maxHeartbeats 2000000 in
theorem kbit_appendExtend {k ext : Key} {t : Token} (hk : KeyWF k) (hext : KeyWF ext)
    (i : Nat) :
    kbit (appendExtend k t ext) i =
      if i < k.length + t.length then kbit (keyAppend k t) i
      else if i < k.length + t.length + ext.length then
        kbit ext (i - (k.length + t.length))
      else false := by
  have hKAbyte : ∀ j, (keyAppend k t).value.getD j 0 =
      if j + 1 = bytesNeeded (k.length + t.length) then
        (k.value.getD j 0) ||| ((t.value <<< dualBitIndex ((k.length + t.length) % 8)) % 256)
      else if j < bytesNeeded (k.length + t.length) then k.value.getD j 0
      else 0 := keyAppend_getD k t
  have hKAkbit : ∀ m, kbit (keyAppend k t) m =
      ((keyAppend k t).value.getD (m / 8) 0).testBit (7 - m % 8) := fun m => rfl
  simp only [appendExtend]
  set B1 := bytesNeeded (k.length + t.length) with hB1def
  set Bt := bytesNeeded (k.length + t.length + ext.length) with hBtdef
  have hB1T : B1 ≤ Bt := bytesNeeded_mono (by omega)
  have hhead : appendIntoBuffer k B1 t = (keyAppend k t).value := rfl
  have hheadlen : (appendIntoBuffer k B1 t).length = B1 := appendIntoBuffer_length k B1 t
  have hB1spec := bytesNeeded_spec (k.length + t.length)
  have hBtspec := bytesNeeded_spec (k.length + t.length + ext.length)
  have hSdef := hext.vlen
  have hSspec := bytesNeeded_spec ext.length
  have hbufgetD : ∀ j,
      (appendIntoBuffer k B1 t ++ List.replicate (Bt - B1) 0).getD j 0 =
        if j < B1 then (keyAppend k t).value.getD j 0 else 0 := by
    intro j
    rw [getD_append, hheadlen, hhead, getD_replicate_zero]
  have hbuflen : (appendIntoBuffer k B1 t ++ List.replicate (Bt - B1) 0).length = Bt := by
    rw [List.length_append, hheadlen, List.length_replicate]
    omega
  by_cases he : ext.length = 0
  · rw [if_pos he, kbit_eq]
    show ((appendIntoBuffer k B1 t ++ List.replicate (Bt - B1) 0).getD (i / 8) 0).testBit
      (7 - i % 8) = _
    rw [hbufgetD]
    by_cases hj : i / 8 < B1
    · rw [if_pos hj, ← hKAkbit]
      by_cases hi : i < k.length + t.length
      · rw [if_pos hi]
      · rw [if_neg hi, if_neg (by omega), kbit_keyAppend_trail hk (by omega)]
    · rw [if_neg hj, if_neg (by omega), if_neg (by omega)]
      exact Nat.zero_testBit _
  · rw [if_neg he]
    by_cases hr : (k.length + t.length) % 8 = 0
    · rw [if_pos hr, kbit_eq]
      have hkt8 : k.length + t.length = 8 * B1 := by
        rw [hB1def]
        unfold bytesNeeded
        rw [if_pos hr]
        omega
      show ((((appendIntoBuffer k B1 t ++ List.replicate (Bt - B1) 0).take B1) ++
          goCopy ((appendIntoBuffer k B1 t ++ List.replicate (Bt - B1) 0).drop B1)
            ext.value).getD (i / 8) 0).testBit (7 - i % 8) = _
      rw [getD_append, List.length_take, hbuflen]
      rw [min_eq_left hB1T]
      by_cases hj : i / 8 < B1
      · rw [if_pos hj, getD_take, if_pos hj, hbufgetD, if_pos hj, ← hKAkbit]
        rw [if_pos (by omega : i < k.length + t.length)]
      · rw [if_neg hj, goCopy_getD, List.length_drop, hbuflen, getD_drop]
        have hdz : ∀ m, (appendIntoBuffer k B1 t ++
            List.replicate (Bt - B1) 0).getD (B1 + m) 0 = 0 := by
          intro m
          rw [hbufgetD, if_neg (by omega)]
        by_cases hc : i / 8 - B1 < min (Bt - B1) ext.value.length
        · rw [if_pos hc]
          have e1 : (i - (k.length + t.length)) / 8 = i / 8 - B1 := by omega
          have e2 : (i - (k.length + t.length)) % 8 = i % 8 := by omega
          by_cases hi : i < k.length + t.length + ext.length
          · rw [if_pos hi, if_neg (by omega), kbit_eq, e1, e2]
          · rw [if_neg hi, if_neg (by omega)]
            have := hext.vtrail (i - (k.length + t.length)) (by omega)
            rw [kbit_eq, e1, e2] at this
            rw [this]
        · rw [if_neg hc, hdz]
          have hi : ¬(i < k.length + t.length + ext.length) := by
            intro hcon
            have h1 : i / 8 < Bt := div8_lt_bytesNeeded hcon
            have h2 : (i - (k.length + t.length)) / 8 < bytesNeeded ext.length :=
              div8_lt_bytesNeeded (by omega)
            omega
          rw [if_neg hi, if_neg (by omega)]
          exact Nat.zero_testBit _
    · rw [if_neg hr, kbit_eq]
      have hkt8 : k.length + t.length = 8 * (B1 - 1) + (k.length + t.length) % 8 := by
        rw [hB1def]
        unfold bytesNeeded
        rw [if_neg hr]
        omega
      have hB1pos : 1 ≤ B1 := by omega
      have hdd : dualBitIndex (dualBitIndex ((k.length + t.length) % 8)) =
          (k.length + t.length) % 8 := by
        unfold dualBitIndex
        omega
      have hd8 : dualBitIndex ((k.length + t.length) % 8) =
          8 - (k.length + t.length) % 8 := by
        unfold dualBitIndex
        omega
      set r := (k.length + t.length) % 8 with hrdef
      set buf := appendIntoBuffer k B1 t ++ List.replicate (Bt - B1) 0 with hbufdef
      set buf2 := buf.set (B1 - 1) ((buf.getD (B1 - 1) 0) ||| ((ext.value.getD 0 0) >>> r))
        with hbuf2def
      have hbuf2len : buf2.length = Bt := by
        rw [hbuf2def, List.length_set, hbuflen]
      have hbuf2getD : ∀ j, buf2.getD j 0 =
          if j = B1 - 1 then (buf.getD (B1 - 1) 0) ||| ((ext.value.getD 0 0) >>> r)
          else buf.getD j 0 := by
        intro j
        rw [hbuf2def, getD_set, hbuflen]
        by_cases hj : j = B1 - 1
        · rw [if_pos ⟨hj.symm, by omega⟩, if_pos hj]
        · rw [if_neg (by omega), if_neg hj]
      show (((buf2.take B1) ++
          shiftCopy (buf2.drop B1) ext.value (dualBitIndex r)).getD (i / 8) 0).testBit
          (7 - i % 8) = _
      rw [getD_append, List.length_take, hbuf2len, min_eq_left hB1T]
      by_cases hj : i / 8 < B1
      · rw [if_pos hj, getD_take, if_pos hj, hbuf2getD]
        by_cases hjl : i / 8 = B1 - 1
        · rw [if_pos hjl, Nat.testBit_or, testBit_shr]
          by_cases hb : i % 8 < r
          · have hi : i < k.length + t.length := by omega
            have hx : (ext.value.getD 0 0).testBit (r + (7 - i % 8)) = false :=
              testBit_byte_high (hext.vbytes 0) (by omega)
            rw [hx, Bool.or_false, if_pos hi, hbufgetD,
              if_pos (show B1 - 1 < B1 by omega), ← hjl, hKAkbit]
          · have hi1 : k.length + t.length ≤ i := by omega
            have hKA0 : (buf.getD (i / 8) 0).testBit (7 - i % 8) = false := by
              rw [hbufdef, hbufgetD, if_pos hj]
              have := kbit_keyAppend_trail hk (t := t) hi1
              rw [hKAkbit] at this
              exact this
            rw [← hjl, hKA0, Bool.false_or, if_neg (by omega)]
            have e0 : i - (k.length + t.length) = i % 8 - r := by omega
            by_cases hi2 : i < k.length + t.length + ext.length
            · rw [if_pos hi2, kbit_eq, e0]
              have e1 : (i % 8 - r) / 8 = 0 := by omega
              have e2 : r + (7 - i % 8) = 7 - (i % 8 - r) % 8 := by omega
              rw [e1, e2]
            · rw [if_neg hi2]
              have := hext.vtrail (i - (k.length + t.length)) (by omega)
              rw [kbit_eq, e0] at this
              have e1 : (i % 8 - r) / 8 = 0 := by omega
              have e2 : r + (7 - i % 8) = 7 - (i % 8 - r) % 8 := by omega
              rw [e1] at this
              rw [e2, this]
        · have hi : i < k.length + t.length := by omega
          rw [if_neg hjl, hbufdef, hbufgetD, if_pos hj, ← hKAkbit, if_pos hi]
      · rw [if_neg hj, shiftCopy_getD, List.length_drop, hbuf2len]
        have hdrop : ∀ m, (buf2.drop B1).getD m 0 = 0 := by
          intro m
          rw [getD_drop, hbuf2getD, if_neg (by omega), hbufdef, hbufgetD,
            if_neg (by omega)]
        have hi1 : k.length + t.length ≤ i := by omega
        rw [if_neg (show ¬(i < k.length + t.length) by omega)]
        by_cases hjt : i / 8 - B1 < Bt - B1
        · rw [if_pos hjt]
          have hn8 : i - (k.length + t.length) = 8 * (i / 8 - B1) + 8 + i % 8 - r := by
            omega
          by_cases hb : i % 8 < r
          · have e1 : (i - (k.length + t.length)) / 8 = i / 8 - B1 := by omega
            have e2 : (i - (k.length + t.length)) % 8 = 8 + i % 8 - r := by omega
            by_cases hc1 : i / 8 - B1 + 1 < ext.value.length
            · rw [if_pos hc1, Nat.testBit_or, testBit_shl_mod256 _ _ _ (by omega),
                testBit_shr, hdd, hd8]
              have ht2 : (ext.value.getD (i / 8 - B1 + 1) 0).testBit
                  (r + (7 - i % 8)) = false :=
                testBit_byte_high (hext.vbytes _) (by omega)
              rw [ht2, Bool.or_false, decide_eq_true (show 8 - r ≤ 7 - i % 8 by omega),
                Bool.true_and]
              have e3 : 7 - i % 8 - (8 - r) = 7 - (i - (k.length + t.length)) % 8 := by
                omega
              rw [e3]
              by_cases hi2 : i < k.length + t.length + ext.length
              · rw [if_pos hi2, kbit_eq, e1]
              · rw [if_neg hi2]
                have := hext.vtrail (i - (k.length + t.length)) (by omega)
                rw [kbit_eq, e1] at this
                rw [this]
            · rw [if_neg hc1]
              by_cases hc2 : i / 8 - B1 < ext.value.length
              · rw [if_pos hc2, testBit_shl_mod256 _ _ _ (by omega), hd8]
                rw [decide_eq_true (show 8 - r ≤ 7 - i % 8 by omega), Bool.true_and]
                have e3 : 7 - i % 8 - (8 - r) = 7 - (i - (k.length + t.length)) % 8 := by
                  omega
                rw [e3]
                by_cases hi2 : i < k.length + t.length + ext.length
                · rw [if_pos hi2, kbit_eq, e1]
                · rw [if_neg hi2]
                  have := hext.vtrail (i - (k.length + t.length)) (by omega)
                  rw [kbit_eq, e1] at this
                  rw [this]
              · rw [if_neg hc2, hdrop]
                have hz : (ext.value.getD ((i - (k.length + t.length)) / 8) 0) = 0 := by
                  refine getD_eq_zero_of_le ?_
                  omega
                by_cases hi2 : i < k.length + t.length + ext.length
                · rw [if_pos hi2, kbit_eq, hz, Nat.zero_testBit, Nat.zero_testBit]
                · rw [if_neg hi2]
                  exact Nat.zero_testBit _
          · have e1 : (i - (k.length + t.length)) / 8 = i / 8 - B1 + 1 := by omega
            have e2 : r + (7 - i % 8) = 7 - (i - (k.length + t.length)) % 8 := by omega
            by_cases hc1 : i / 8 - B1 + 1 < ext.value.length
            · rw [if_pos hc1, Nat.testBit_or, testBit_shl_mod256 _ _ _ (by omega),
                testBit_shr, hdd, hd8]
              rw [decide_eq_false (show ¬(8 - r ≤ 7 - i % 8) by omega), Bool.false_and,
                Bool.false_or, e2]
              by_cases hi2 : i < k.length + t.length + ext.length
              · rw [if_pos hi2, kbit_eq, e1]
              · rw [if_neg hi2]
                have := hext.vtrail (i - (k.length + t.length)) (by omega)
                rw [kbit_eq, e1] at this
                rw [this]
            · rw [if_neg hc1]
              have hz : (ext.value.getD ((i - (k.length + t.length)) / 8) 0) = 0 := by
                refine getD_eq_zero_of_le ?_
                omega
              by_cases hc2 : i / 8 - B1 < ext.value.length
              · rw [if_pos hc2, testBit_shl_mod256 _ _ _ (by omega), hd8]
                rw [decide_eq_false (show ¬(8 - r ≤ 7 - i % 8) by omega), Bool.false_and]
                by_cases hi2 : i < k.length + t.length + ext.length
                · rw [if_pos hi2, kbit_eq, hz, Nat.zero_testBit]
                · rw [if_neg hi2]
              · rw [if_neg hc2, hdrop]
                by_cases hi2 : i < k.length + t.length + ext.length
                · rw [if_pos hi2, kbit_eq, hz, Nat.zero_testBit, Nat.zero_testBit]
                · rw [if_neg hi2]
                  exact Nat.zero_testBit _
        · rw [if_neg hjt]
          have hi2 : ¬(i < k.length + t.length + ext.length) := by
            intro hcon
            have := div8_lt_bytesNeeded hcon
            omega
          rw [if_neg hi2]
          exact Nat.zero_testBit _

set_option maxHeartbeats 1000000 in
theorem wf_appendExtend {k ext : Key} {t : Token} (hk : KeyWF k) (hext : KeyWF ext)
    (hv : t.value < 2 ^ t.length) : KeyWF (appendExtend k t ext) := by
  have hKAwf := wf_keyAppend hk hv
  refine ⟨?_, ?_, ?_⟩
  · rw [appendExtend_length]
    simp only [appendExtend]
    set B1 := bytesNeeded (k.length + t.length) with hB1def
    set Bt := bytesNeeded (k.length + t.length + ext.length) with hBtdef
    have hB1T : B1 ≤ Bt := bytesNeeded_mono (by omega)
    have hheadlen : (appendIntoBuffer k B1 t).length = B1 := appendIntoBuffer_length k B1 t
    have hbuflen : (appendIntoBuffer k B1 t ++ List.replicate (Bt - B1) 0).length = Bt := by
      rw [List.length_append, hheadlen, List.length_replicate]
      omega
    by_cases he : ext.length = 0
    · rw [if_pos he]
      exact hbuflen
    · rw [if_neg he]
      by_cases hr : (k.length + t.length) % 8 = 0
      · rw [if_pos hr]
        show ((_ ++ List.replicate (Bt - B1) 0).take B1 ++ goCopy _ _).length = Bt
        rw [List.length_append, List.length_take, goCopy_length, List.length_drop, hbuflen]
        omega
      · rw [if_neg hr]
        show ((List.set _ _ _).take B1 ++ shiftCopy ((List.set _ _ _).drop B1) _ _).length = Bt
        rw [List.length_append, List.length_take, shiftCopy_length, List.length_drop,
          List.length_set, hbuflen]
        omega
  · intro j
    simp only [appendExtend]
    set B1 := bytesNeeded (k.length + t.length) with hB1def
    set Bt := bytesNeeded (k.length + t.length + ext.length) with hBtdef
    have hB1T : B1 ≤ Bt := bytesNeeded_mono (by omega)
    have hheadlen : (appendIntoBuffer k B1 t).length = B1 := appendIntoBuffer_length k B1 t
    have hhead : appendIntoBuffer k B1 t = (keyAppend k t).value := rfl
    have hbufgetD : ∀ m,
        (appendIntoBuffer k B1 t ++ List.replicate (Bt - B1) 0).getD m 0 =
          if m < B1 then (keyAppend k t).value.getD m 0 else 0 := by
      intro m
      rw [getD_append, hheadlen, hhead, getD_replicate_zero]
    have hbuflt : ∀ m, (appendIntoBuffer k B1 t ++ List.replicate (Bt - B1) 0).getD m 0
        < 256 := by
      intro m
      rw [hbufgetD]
      split
      · exact hKAwf.vbytes m
      · norm_num
    have hbuflen : (appendIntoBuffer k B1 t ++ List.replicate (Bt - B1) 0).length = Bt := by
      rw [List.length_append, hheadlen, List.length_replicate]
      omega
    by_cases he : ext.length = 0
    · rw [if_pos he]
      exact hbuflt j
    · rw [if_neg he]
      by_cases hr : (k.length + t.length) % 8 = 0
      · rw [if_pos hr]
        show ((_ ++ List.replicate (Bt - B1) 0).take B1 ++ goCopy _ _).getD j 0 < 256
        rw [getD_append, List.length_take, hbuflen, min_eq_left hB1T]
        by_cases hjB1 : j < B1
        · rw [if_pos hjB1, getD_take, if_pos hjB1]
          exact hbuflt j
        · rw [if_neg hjB1, goCopy_getD]
          split
          · exact hext.vbytes _
          · rw [getD_drop]
            exact hbuflt _
      · rw [if_neg hr]
        set buf := appendIntoBuffer k B1 t ++ List.replicate (Bt - B1) 0 with hbufdef
        set r := (k.length + t.length) % 8 with hrdef
        set buf2 := buf.set (B1 - 1) ((buf.getD (B1 - 1) 0) ||| ((ext.value.getD 0 0) >>> r))
          with hbuf2def
        have hbuf2lt : ∀ m, buf2.getD m 0 < 256 := by
          intro m
          rw [hbuf2def, getD_set]
          split
          · exact Nat.or_lt_two_pow (n := 8) (hbuflt _)
              (shiftRight_lt_256 (hext.vbytes 0) r)
          · exact hbuflt m
        show (buf2.take B1 ++ shiftCopy (buf2.drop B1) ext.value (dualBitIndex r)).getD j 0
          < 256
        rw [getD_append, List.length_take]
        split
        · rw [getD_take]
          split
          · exact hbuf2lt j
          · norm_num
        · rw [shiftCopy_getD]
          split
          · split
            · exact Nat.or_lt_two_pow (n := 8) (Nat.mod_lt _ (by norm_num))
                (shiftRight_lt_256 (hext.vbytes _) _)
            · split
              · exact Nat.mod_lt _ (by norm_num)
              · rw [getD_drop]
                exact hbuf2lt _
          · norm_num
  · intro i hi
    rw [appendExtend_length] at hi
    rw [kbit_appendExtend hk hext, if_neg (by omega), if_neg (by omega)]

/-! ### `hasPfx` characterization -/

theorem byte_eq_of_bits {x y : Nat} (hx : x < 256) (hy : y < 256)
    (h : ∀ b, b < 8 → x.testBit (7 - b) = y.testBit (7 - b)) : x = y := by
  refine Nat.eq_of_testBit_eq ?_
  intro n
  by_cases hn : n < 8
  · have := h (7 - n) (by omega)
    have e : 7 - (7 - n) = n := by omega
    rwa [e] at this
  · rw [testBit_byte_high hx (by omega), testBit_byte_high hy (by omega)]

theorem take_eq_iff (s q : List Nat) :
    (s.take q.length = q) ↔
      (q.length ≤ s.length ∧ ∀ j, j < q.length → s.getD j 0 = q.getD j 0) := by
  induction q generalizing s with
  | nil => simp
  | cons c q ih =>
    cases s with
    | nil =>
      simp
    | cons a s =>
      simp only [List.length_cons, List.take_succ_cons, List.cons.injEq]
      constructor
      · rintro ⟨rfl, htl⟩
        have hih := (ih s).mp htl
        refine ⟨by simpa using hih.1, ?_⟩
        intro j hj
        cases j with
        | zero => rfl
        | succ j =>
          have := hih.2 j (by omega)
          simpa using this
      · rintro ⟨hle, hall⟩
        have h0 := hall 0 (by omega)
        simp only [List.getD_cons_zero] at h0
        refine ⟨h0, (ih s).mpr ⟨by simpa using hle, ?_⟩⟩
        intro j hj
        have := hall (j + 1) (by omega)
        simpa using this

theorem mask_eq (r : Nat) (hr1 : 0 < r) (hr8 : r < 8) :
    (255 : Nat) >>> r = 2 ^ (8 - r) - 1 := by
  interval_cases r <;> rfl

theorem or_mask_eq_iff {x y r : Nat} (hx : x < 256) (hy : y < 256)
    (hr1 : 0 < r) (hr8 : r < 8) :
    ((x ||| (255 >>> r)) = (y ||| (255 >>> r))) ↔
      ∀ b, b < r → x.testBit (7 - b) = y.testBit (7 - b) := by
  have hmask : ∀ m : Nat, ((255 : Nat) >>> r).testBit m = decide (m < 8 - r) := by
    intro m
    rw [mask_eq r hr1 hr8, Nat.testBit_two_pow_sub_one]
  constructor
  · intro heq b hb
    have hcg := congrArg (fun z => Nat.testBit z (7 - b)) heq
    simp only [Nat.testBit_or] at hcg
    rw [hmask, decide_eq_false (show ¬(7 - b < 8 - r) by omega)] at hcg
    simpa using hcg
  · intro h
    refine Nat.eq_of_testBit_eq ?_
    intro n
    rw [Nat.testBit_or, Nat.testBit_or, hmask]
    by_cases hn : n < 8 - r
    · rw [decide_eq_true hn]
      simp
    · by_cases hn8 : n < 8
      · have := h (7 - n) (by omega)
        have e : 7 - (7 - n) = n := by omega
        rw [e] at this
        rw [this]
      · rw [testBit_byte_high hx (by omega), testBit_byte_high hy (by omega)]

set_option maxHeartbeats 1000000 in
theorem hasPfx_iff {k p : Key} (hk : KeyWF k) (hp : KeyWF p) :
    hasPfx k p = true ↔
      (p.length ≤ k.length ∧ ∀ i, i < p.length → kbit p i = kbit k i) := by
  simp only [hasPfx]
  by_cases hlen : k.length < p.length
  · rw [if_pos hlen]
    constructor
    · intro h
      exact absurd h (by simp)
    · rintro ⟨h1, -⟩
      omega
  · rw [if_neg hlen]
    have hplen : p.length ≤ k.length := by omega
    have hPk : p.value.length ≤ k.value.length := by
      rw [hp.vlen, hk.vlen]
      exact bytesNeeded_mono hplen
    by_cases hr : p.length % 8 = 0
    · rw [if_pos hr]
      have hP : p.value.length = p.length / 8 := by
        rw [hp.vlen]
        unfold bytesNeeded
        rw [if_pos hr]
        omega
      unfold strHasPfx
      rw [decide_eq_true_eq, take_eq_iff]
      constructor
      · rintro ⟨-, hbytes⟩
        refine ⟨hplen, ?_⟩
        intro i hi
        rw [kbit_eq, kbit_eq, hbytes (i / 8) (by omega)]
      · rintro ⟨-, hbits⟩
        refine ⟨hPk, ?_⟩
        intro j hj
        refine byte_eq_of_bits (hk.vbytes j) (hp.vbytes j) ?_
        intro b hb
        have hi : 8 * j + b < p.length := by omega
        have hbb := hbits (8 * j + b) hi
        rw [kbit_eq, kbit_eq] at hbb
        have e1 : (8 * j + b) / 8 = j := by omega
        have e2 : (8 * j + b) % 8 = b := by omega
        rw [e1, e2] at hbb
        exact hbb.symm
    · rw [if_neg hr]
      have hP : p.value.length = p.length / 8 + 1 := by
        rw [hp.vlen]
        unfold bytesNeeded
        rw [if_neg hr]
      have hr8 : p.length % 8 < 8 := by omega
      have hr1 : 0 < p.length % 8 := by omega
      have hmiff := or_mask_eq_iff (x := p.value.getD (p.value.length - 1) 0)
        (y := k.value.getD (p.value.length - 1) 0)
        (hp.vbytes _) (hk.vbytes _) hr1 hr8
      by_cases hA : (p.value.getD (p.value.length - 1) 0 ||| 255 >>> (p.length % 8)) =
          (k.value.getD (p.value.length - 1) 0 ||| 255 >>> (p.length % 8))
      · rw [if_neg (show ¬(_ ≠ _) from not_not_intro hA)]
        unfold strHasPfx
        rw [decide_eq_true_eq]
        have hqlen : (p.value.take (p.value.length - 1)).length = p.value.length - 1 := by
          rw [List.length_take]
          omega
        have hiff := take_eq_iff k.value (p.value.take (p.value.length - 1))
        rw [hqlen] at hiff
        rw [hqlen, hiff]
        have hAbits := hmiff.mp hA
        constructor
        · rintro ⟨-, hbytes⟩
          refine ⟨hplen, ?_⟩
          intro i hi
          by_cases hj : i / 8 < p.value.length - 1
          · have := hbytes (i / 8) hj
            rw [getD_take, if_pos hj] at this
            rw [kbit_eq, kbit_eq, this]
          · have hj8 : i / 8 = p.value.length - 1 := by omega
            have hb : i % 8 < p.length % 8 := by omega
            have := hAbits (i % 8) hb
            rw [kbit_eq, kbit_eq, hj8]
            exact this
        · rintro ⟨-, hbits⟩
          refine ⟨by omega, ?_⟩
          intro j hj
          rw [getD_take, if_pos hj]
          refine byte_eq_of_bits (hk.vbytes j) (hp.vbytes j) ?_
          intro b hb
          have hi : 8 * j + b < p.length := by omega
          have hbb := hbits (8 * j + b) hi
          rw [kbit_eq, kbit_eq] at hbb
          have e1 : (8 * j + b) / 8 = j := by omega
          have e2 : (8 * j + b) % 8 = b := by omega
          rw [e1, e2] at hbb
          exact hbb.symm
      · rw [if_pos hA]
        constructor
        · intro h
          exact absurd h (by simp)
        · rintro ⟨-, hbits⟩
          refine absurd (hmiff.mpr ?_) hA
          intro b hb
          have hi : 8 * (p.value.length - 1) + b < p.length := by omega
          have hbb := hbits (8 * (p.value.length - 1) + b) hi
          rw [kbit_eq, kbit_eq] at hbb
          have e1 : (8 * (p.value.length - 1) + b) / 8 = p.value.length - 1 := by omega
          have e2 : (8 * (p.value.length - 1) + b) % 8 = b := by omega
          rw [e1, e2] at hbb
          exact hbb

/-! ### Key equality and semantic bits -/

theorem getD_range_map_bool (f : Nat → Bool) (n j : Nat) :
    (((List.range n).map f).getD j false) = if j < n then f j else false := by
  by_cases h : j < n
  · rw [if_pos h, List.getD_eq_getElem?_getD, List.getElem?_map, List.getElem?_range h]
    rfl
  · rw [if_neg h, List.getD_eq_getElem?_getD, List.getElem?_eq_none (by simpa using Nat.le_of_not_lt h)]
    rfl

theorem keyBits_eq_iff {k1 k2 : Key} :
    keyBits k1 = keyBits k2 ↔
      (k1.length = k2.length ∧ ∀ i, i < k1.length → kbit k1 i = kbit k2 i) := by
  unfold keyBits
  constructor
  · intro h
    have hlen : k1.length = k2.length := by
      have := congrArg List.length h
      simpa using this
    refine ⟨hlen, ?_⟩
    intro i hi
    have hg := congrArg (fun l => l.getD i false) h
    simp only [getD_range_map_bool] at hg
    rw [if_pos hi, if_pos (by omega)] at hg
    exact hg
  · rintro ⟨hlen, hbits⟩
    rw [← hlen]
    refine List.ext_getElem (by simp) ?_
    intro i hi1 hi2
    simp only [List.getElem_map, List.getElem_range]
    simp only [List.length_map, List.length_range] at hi1
    exact hbits i hi1

theorem key_eq_iff {k1 k2 : Key} (h1 : KeyWF k1) (h2 : KeyWF k2) :
    k1 = k2 ↔ (k1.length = k2.length ∧ ∀ i, i < k1.length → kbit k1 i = kbit k2 i) := by
  constructor
  · rintro rfl
    exact ⟨rfl, fun i _ => rfl⟩
  · rintro ⟨hlen, hbits⟩
    have hall : ∀ i, kbit k1 i = kbit k2 i := by
      intro i
      by_cases hi : i < k1.length
      · exact hbits i hi
      · rw [h1.vtrail i (by omega), h2.vtrail i (by omega)]
    have hvlen : k1.value.length = k2.value.length := by
      rw [h1.vlen, h2.vlen, hlen]
    have hval : k1.value = k2.value := by
      refine List.ext_getElem hvlen ?_
      intro j hj1 hj2
      have hbyte : k1.value.getD j 0 = k2.value.getD j 0 := by
        refine byte_eq_of_bits (h1.vbytes j) (h2.vbytes j) ?_
        intro b hb
        have := hall (8 * j + b)
        rw [kbit_eq, kbit_eq] at this
        have e1 : (8 * j + b) / 8 = j := by omega
        have e2 : (8 * j + b) % 8 = b := by omega
        rw [e1, e2] at this
        exact this
      rw [List.getD_eq_getElem?_getD, List.getD_eq_getElem?_getD,
        List.getElem?_eq_getElem hj1, List.getElem?_eq_getElem hj2] at hbyte
      simpa using hbyte
    cases k1
    cases k2
    simp only at hval hlen
    simp [hval, hlen]

theorem getD_lt_256_of_all {bs : List Nat} (h : bs.all (fun b => decide (b < 256)) = true) :
    ∀ j, bs.getD j 0 < 256 := by
  intro j
  by_cases hj : j < bs.length
  · rw [List.getD_eq_getElem?_getD, List.getElem?_eq_getElem hj]
    have := List.all_eq_true.mp h _ (List.getElem_mem hj)
    simpa using this
  · rw [getD_eq_zero_of_le (by omega)]
    norm_num

/-! ### Claim theorems about the Key codec -/

/-- C3: for well-formed keys, `HasPrefix` returns true iff the prefix is a
bit-for-bit prefix of the key (comparing only the first `prefix.length` bits,
via the partial-byte mask) or equal to it, and `HasStrictPrefix` additionally
requires inequality. -/
theorem C3_hasPfx_spec (k p : Key) (hk : KeyWF k) (hp : KeyWF p) :
    (hasPfx k p = true ↔
      ((p.length ≤ k.length ∧ ∀ i, i < p.length → kbit p i = kbit k i) ∨ p = k)) ∧
    (hasStrictPfx k p = true ↔
      ((p.length ≤ k.length ∧ ∀ i, i < p.length → kbit p i = kbit k i) ∧ p ≠ k)) := by
  have hm := hasPfx_iff hk hp
  constructor
  · rw [hm]
    constructor
    · exact Or.inl
    · rintro (h | rfl)
      · exact h
      · exact ⟨le_refl _, fun i _ => rfl⟩
  · unfold hasStrictPfx
    rw [Bool.and_eq_true, hm, decide_eq_true_eq]
    constructor
    · rintro ⟨hne, h⟩
      exact ⟨h, fun he => hne he.symm⟩
    · rintro ⟨h, hne⟩
      exact ⟨fun he => hne he.symm, h⟩

theorem C3_hasPfx_spec_witness :
    hasPfx (toKey [18]) (keyTake (toKey [18]) 3) = true ∧
    hasStrictPfx (toKey [18]) (keyTake (toKey [18]) 3) = true := by
  have hk : KeyWF (toKey [18]) := wf_toKey _ (getD_lt_256_of_all (by decide))
  have hp : KeyWF (keyTake (toKey [18]) 3) := wf_keyTake hk 3
  have h := C3_hasPfx_spec (toKey [18]) (keyTake (toKey [18]) 3) hk hp
  constructor
  · exact h.1.mpr (Or.inl ⟨by decide, by decide⟩)
  · exact h.2.mpr ⟨⟨by decide, by decide⟩, by decide⟩

/-- C5: `Skip` and `Take` length laws and identity boundaries: the skipped
key has length `max 0 (length - n)`, the taken key has length
`min n length`, `Take length` and `Skip 0` are identities, `Skip` of `n ≥
length` is the empty key and `Take` of `n ≥ length` returns the key
unchanged. -/
theorem C5_skip_take_laws (k : Key) (n : Nat) (hk : KeyWF k) :
    (keySkip k n).length = k.length - n ∧
    (keyTake k n).length = min n k.length ∧
    keyTake k k.length = k ∧
    keySkip k 0 = k ∧
    (k.length ≤ n → keySkip k n = ⟨[], 0⟩ ∧ keyTake k n = k) := by
  refine ⟨keySkip_length k n, keyTake_length k n, ?_, ?_, ?_⟩
  · simp only [keyTake]
    rw [if_pos (le_refl _)]
  · simp only [keySkip]
    by_cases h0 : k.length ≤ 0
    · rw [if_pos h0]
      have hv : k.value.length = 0 := by
        rw [hk.vlen]
        unfold bytesNeeded
        split <;> omega
      have hval : k.value = [] := List.length_eq_zero.mp hv
      cases k
      simp only at hval h0 ⊢
      simp [hval]
      omega
    · rw [if_neg h0]
      cases k
      simp
  · intro hn
    constructor
    · simp only [keySkip]
      rw [if_pos hn]
    · simp only [keyTake]
      rw [if_pos hn]

theorem C5_skip_take_laws_witness :
    (keySkip (toKey [18, 52]) 5).length = 16 - 5 ∧
    (keyTake (toKey [18, 52]) 5).length = min 5 16 ∧
    keyTake (toKey [18, 52]) 16 = toKey [18, 52] ∧
    keySkip (toKey [18, 52]) 0 = toKey [18, 52] ∧
    (16 ≤ 20 → keySkip (toKey [18, 52]) 20 = ⟨[], 0⟩ ∧
      keyTake (toKey [18, 52]) 20 = toKey [18, 52]) := by
  have hk : KeyWF (toKey [18, 52]) := wf_toKey _ (getD_lt_256_of_all (by decide))
  have h5 := C5_skip_take_laws (toKey [18, 52]) 5 hk
  have h20 := C5_skip_take_laws (toKey [18, 52]) 20 hk
  exact ⟨h5.1, h5.2.1, h5.2.2.1, h5.2.2.2.1, fun _ => h20.2.2.2.2 (by decide)⟩

/-- C6: appending a token yields a key that has the original key as a
(strict) prefix, every key is a (non-strict) prefix of itself, and no key is
a strict prefix of itself. -/
theorem C6_append_pfx_laws (k : Key) (t : Token) (hk : KeyWF k)
    (htl : t.length = 1 ∨ t.length = 2 ∨ t.length = 4 ∨ t.length = 8)
    (hv : t.value < 2 ^ t.length) :
    hasPfx (keyAppend k t) k = true ∧
    hasStrictPfx (keyAppend k t) k = true ∧
    hasPfx k k = true ∧
    hasStrictPfx k k = false := by
  have hka : KeyWF (keyAppend k t) := wf_keyAppend hk hv
  have htpos : 1 ≤ t.length := by rcases htl with h | h | h | h <;> omega
  have hlen : (keyAppend k t).length = k.length + t.length := rfl
  have h1 : hasPfx (keyAppend k t) k = true := by
    rw [hasPfx_iff hka hk]
    refine ⟨by omega, ?_⟩
    intro i hi
    exact (kbit_keyAppend_low hk hv hi).symm
  have hne : keyAppend k t ≠ k := by
    intro heq
    have := congrArg Key.length heq
    rw [hlen] at this
    omega
  refine ⟨h1, ?_, ?_, ?_⟩
  · unfold hasStrictPfx
    rw [Bool.and_eq_true, decide_eq_true_eq]
    exact ⟨hne, h1⟩
  · rw [hasPfx_iff hk hk]
    exact ⟨le_refl _, fun i _ => rfl⟩
  · unfold hasStrictPfx
    simp

theorem C6_append_pfx_laws_witness :
    hasPfx (keyAppend (toKey [18]) ⟨4, 11⟩) (toKey [18]) = true ∧
    hasStrictPfx (keyAppend (toKey [18]) ⟨4, 11⟩) (toKey [18]) = true ∧
    hasPfx (toKey [18]) (toKey [18]) = true ∧
    hasStrictPfx (toKey [18]) (toKey [18]) = false :=
  C6_append_pfx_laws (toKey [18]) ⟨4, 11⟩
    (wf_toKey _ (getD_lt_256_of_all (by decide))) (by norm_num) (by norm_num)

theorem keyToken_bits {k : Key} {o t : Nat}
    (ht : t = 1 ∨ t = 2 ∨ t = 4 ∨ t = 8) (ha : o % t = 0) :
    keyToken k o t < 2 ^ t ∧
      ∀ j, j < t → (keyToken k o t).testBit (t - 1 - j) = kbit k (o + j) := by
  have h1t : 1 ≤ t := by rcases ht with rfl | rfl | rfl | rfl <;> omega
  have hble : o % 8 + t ≤ 8 := by rcases ht with rfl | rfl | rfl | rfl <;> omega
  have hdual : dualBitIndex ((o + t) % 8) = 8 - o % 8 - t := by
    unfold dualBitIndex
    rcases ht with rfl | rfl | rfl | rfl <;> omega
  have hmask : (255 : Nat) >>> dualBitIndex t = 2 ^ t - 1 := by
    rcases ht with rfl | rfl | rfl | rfl <;> rfl
  unfold keyToken
  rw [hdual, hmask]
  constructor
  · exact lt_of_le_of_lt Nat.and_le_right
      (Nat.sub_lt (Nat.pos_pow_of_pos t (by norm_num)) (by norm_num))
  · intro j hj
    rw [Nat.testBit_and, testBit_shr, Nat.testBit_two_pow_sub_one, kbit_eq]
    rw [decide_eq_true (show t - 1 - j < t by omega), Bool.and_true]
    have e1 : (o + j) / 8 = o / 8 := by omega
    have e2 : 8 - o % 8 - t + (t - 1 - j) = 7 - (o + j) % 8 := by omega
    rw [e1, e2]

/-- C7: the key `[0b1010_0000]` truncated to 4 bits has length 4 and its
`Token(0,4)` equals `0b1010`; in general `Token(bitOffset, tokenBits)`
extracts `tokenBits` bits at `bitOffset`, right-aligned in the returned
value with MSB-first bit order, for any token-aligned offset. -/
theorem C7_token_extraction (k : Key) (bitOffset tokenBitSize : Nat)
    (ht : tokenBitSize = 1 ∨ tokenBitSize = 2 ∨ tokenBitSize = 4 ∨ tokenBitSize = 8)
    (ha : bitOffset % tokenBitSize = 0) :
    (keyToken k bitOffset tokenBitSize < 2 ^ tokenBitSize ∧
      ∀ j, j < tokenBitSize →
        (keyToken k bitOffset tokenBitSize).testBit (tokenBitSize - 1 - j) =
          kbit k (bitOffset + j)) ∧
    ((keyTake (toKey [160]) 4).length = 4 ∧ keyToken (keyTake (toKey [160]) 4) 0 4 = 10) :=
  ⟨keyToken_bits ht ha, by decide, by decide⟩

theorem C7_token_extraction_witness :
    (keyToken (toKey [160]) 0 4 < 2 ^ 4 ∧
      ∀ j, j < 4 → (keyToken (toKey [160]) 0 4).testBit (4 - 1 - j) =
        kbit (toKey [160]) (0 + j)) ∧
    ((keyTake (toKey [160]) 4).length = 4 ∧ keyToken (keyTake (toKey [160]) 4) 0 4 = 10) :=
  C7_token_extraction (toKey [160]) 0 4 (by norm_num) (by norm_num)

/-- C4 (counterexample): for the 6-bit key `111111` (built by `Take 6` from
`0xFF`) and the 4-bit token `0b1111`, `AppendExtend` does not produce the
concatenated bit sequence: the token straddles the byte boundary and the Go
code ORs the token only into the last buffer byte, so bits 6 and 7 of the
result are zero instead of the token's top bits. -/
theorem C4_appendExtend_counterexample :
    keyBits (appendExtend (keyTake (toKey [255]) 6) ⟨4, 15⟩ (toKey [])) ≠
      keyBits (keyTake (toKey [255]) 6) ++ tokenBits ⟨4, 15⟩ ++ keyBits (toKey []) := by
  decide

/-- C4 (amended): for well-formed keys and a valid token that does not
straddle a byte boundary (`k.length % 8 + t.length ≤ 8`, which holds for
every key whose length is a multiple of the token size, the only keys the
trie builds), `AppendExtend` returns a key of bit-length
`k.length + t.length + ext.length` whose bit sequence is exactly the bits of
`k`, then the token bits, then the bits of `ext` — including when
`k.length + t.length` is not a multiple of 8, in which case the extension is
shifted by the remainder and merged across byte boundaries. -/
theorem C4_appendExtend_amended (k ext : Key) (t : Token) (hk : KeyWF k) (hext : KeyWF ext)
    (hv : t.value < 2 ^ t.length) (hns : k.length % 8 + t.length ≤ 8) :
    (appendExtend k t ext).length = k.length + t.length + ext.length ∧
    keyBits (appendExtend k t ext) = keyBits k ++ tokenBits t ++ keyBits ext := by
  refine ⟨appendExtend_length k t ext, ?_⟩
  have hlenA : (keyBits k).length = k.length := by simp [keyBits]
  have hlenB : (tokenBits t).length = t.length := by simp [tokenBits]
  have hlenC : (keyBits ext).length = ext.length := by simp [keyBits]
  have hlenL : (keyBits (appendExtend k t ext)).length =
      k.length + t.length + ext.length := by
    simp [keyBits, appendExtend_length]
  refine List.ext_getElem (by simp [hlenL, hlenA, hlenB, hlenC]; omega) ?_
  intro i hi1 hi2
  rw [hlenL] at hi1
  have hL : (keyBits (appendExtend k t ext))[i] = kbit (appendExtend k t ext) i := by
    simp [keyBits]
  rw [hL, kbit_appendExtend hk hext]
  by_cases h1 : i < k.length
  · rw [if_pos (by omega), kbit_keyAppend_low hk hv h1]
    rw [List.getElem_append_left (by rw [List.length_append, hlenA, hlenB]; omega),
      List.getElem_append_left (by rw [hlenA]; omega)]
    simp [keyBits]
  · by_cases h2 : i < k.length + t.length
    · rw [if_pos h2, kbit_keyAppend_tok hk hv hns (by omega) h2]
      rw [List.getElem_append_left (by rw [List.length_append, hlenA, hlenB]; omega),
        List.getElem_append_right (by rw [hlenA]; omega)]
      simp only [tokenBits, List.getElem_map, List.getElem_range, hlenA]
    · rw [if_neg h2, if_pos (by omega)]
      rw [List.getElem_append_right (by rw [List.length_append, hlenA, hlenB]; omega)]
      simp only [keyBits, List.getElem_map, List.getElem_range, List.length_append,
        hlenA, hlenB]
      rw [List.length_map, List.length_range]

/-! ### C10: `iteratedHasPrefix` vs `Skip` + `HasPrefix` -/

theorem bool_eq_of_iff {a b : Bool} (h : a = true ↔ b = true) : a = b := by
  cases a <;> cases b <;> simp_all

theorem token_eq_iff_bits {k1 k2 : Key} {o1 o2 t : Nat}
    (ht : t = 1 ∨ t = 2 ∨ t = 4 ∨ t = 8) (h1 : o1 % t = 0) (h2 : o2 % t = 0) :
    keyToken k1 o1 t = keyToken k2 o2 t ↔
      ∀ m, m < t → kbit k1 (o1 + m) = kbit k2 (o2 + m) := by
  obtain ⟨hb1, hbits1⟩ := keyToken_bits (k := k1) ht h1
  obtain ⟨hb2, hbits2⟩ := keyToken_bits (k := k2) ht h2
  constructor
  · intro heq m hm
    rw [← hbits1 m hm, ← hbits2 m hm, heq]
  · intro hbits
    refine Nat.eq_of_testBit_eq ?_
    intro n
    by_cases hn : n < t
    · have hmn := hbits (t - 1 - n) (by omega)
      rw [← hbits1 (t - 1 - n) (by omega), ← hbits2 (t - 1 - n) (by omega)] at hmn
      have e : t - 1 - (t - 1 - n) = n := by omega
      rwa [e] at hmn
    · rw [testBit_tokval_high hb1 (by omega), testBit_tokval_high hb2 (by omega)]

/-- C10 (counterexample): for the empty key, an empty prefix, and
`bitsToSkip = tokenBitSize = 8`, `iteratedHasPrefix` returns `false` (the
signed guard `k.length - bitsToSkip < prefix.length` fires on the negative
slack) while `Skip` then `HasPrefix` returns `true` (the empty prefix is a
prefix of the empty key). -/
theorem C10_iteratedHasPfx_counterexample :
    iteratedHasPfx (toKey []) (toKey []) 8 8 = false ∧
    hasPfx (keySkip (toKey []) 8) (toKey []) = true := by
  decide

/-- C10 (amended): for well-formed keys, a token-aligned prefix and skip
count, and `bitsToSkip` not exceeding the key length,
`iteratedHasPrefix(prefix, bitsToSkip, tokenBitSize)` returns the same
boolean as `Skip(bitsToSkip)` followed by `HasPrefix(prefix)`. -/
theorem C10_iteratedHasPfx_amended (k pfx : Key) (bitsToSkip tokenBitSize : Nat)
    (hk : KeyWF k) (hp : KeyWF pfx)
    (ht : tokenBitSize = 1 ∨ tokenBitSize = 2 ∨ tokenBitSize = 4 ∨ tokenBitSize = 8)
    (hpl : pfx.length % tokenBitSize = 0) (hbs : bitsToSkip % tokenBitSize = 0)
    (hle : bitsToSkip ≤ k.length) :
    iteratedHasPfx k pfx bitsToSkip tokenBitSize =
      hasPfx (keySkip k bitsToSkip) pfx := by
  have htpos : 0 < tokenBitSize := by rcases ht with rfl | rfl | rfl | rfl <;> omega
  have hN : (pfx.length + tokenBitSize - 1) / tokenBitSize = pfx.length / tokenBitSize := by
    rcases ht with rfl | rfl | rfl | rfl <;> omega
  have hNt : pfx.length / tokenBitSize * tokenBitSize = pfx.length :=
    Nat.div_mul_cancel (Nat.dvd_of_mod_eq_zero hpl)
  refine bool_eq_of_iff ?_
  rw [hasPfx_iff (wf_keySkip hk bitsToSkip) hp, keySkip_length]
  unfold iteratedHasPfx
  by_cases hcond : (k.length : Int) - (bitsToSkip : Int) < (pfx.length : Int)
  · rw [if_pos hcond]
    constructor
    · intro h
      exact absurd h (by simp)
    · rintro ⟨hplen, -⟩
      omega
  · rw [if_neg hcond]
    rw [List.all_eq_true]
    constructor
    · intro h
      refine ⟨by omega, ?_⟩
      intro i hi
      have hj : i / tokenBitSize < pfx.length / tokenBitSize :=
        Nat.div_lt_div_of_lt_of_dvd (Nat.dvd_of_mod_eq_zero hpl) hi
      have hjr : i / tokenBitSize ∈ List.range ((pfx.length + tokenBitSize - 1) /
          tokenBitSize) := by
        rw [List.mem_range, hN]
        exact hj
      have htok := h _ hjr
      rw [beq_iff_eq] at htok
      have hal1 : (bitsToSkip + i / tokenBitSize * tokenBitSize) % tokenBitSize = 0 := by
        rw [Nat.add_mul_mod_self_right, hbs]
      have hal2 : (i / tokenBitSize * tokenBitSize) % tokenBitSize = 0 :=
        Nat.mul_mod_left _ _
      have hbitseq := (token_eq_iff_bits ht hal1 hal2).mp htok (i % tokenBitSize)
        (Nat.mod_lt _ htpos)
      have e1 : i / tokenBitSize * tokenBitSize + i % tokenBitSize = i := by
        rw [Nat.mul_comm]
        exact Nat.div_add_mod i tokenBitSize
      rw [Nat.add_assoc, e1] at hbitseq
      rw [kbit_keySkip hk]
      exact hbitseq.symm
    · rintro ⟨hplen, hbits⟩
      intro j hj
      rw [List.mem_range, hN] at hj
      rw [beq_iff_eq]
      have hal1 : (bitsToSkip + j * tokenBitSize) % tokenBitSize = 0 := by
        rw [Nat.add_mul_mod_self_right, hbs]
      have hal2 : (j * tokenBitSize) % tokenBitSize = 0 :=
        Nat.mul_mod_left _ _
      refine (token_eq_iff_bits ht hal1 hal2).mpr ?_
      intro m hm
      have hi : j * tokenBitSize + m < pfx.length := by
        calc j * tokenBitSize + m < j * tokenBitSize + tokenBitSize :=
              Nat.add_lt_add_left hm _
        _ = (j + 1) * tokenBitSize := (Nat.succ_mul j tokenBitSize).symm
        _ ≤ pfx.length / tokenBitSize * tokenBitSize :=
              Nat.mul_le_mul_right _ hj
        _ = pfx.length := hNt
      have hbb := hbits (j * tokenBitSize + m) hi
      rw [kbit_keySkip hk, ← Nat.add_assoc] at hbb
      exact hbb.symm

/-! ### Bit-lexicographic order and `keyLess` (for the representation claim) -/

/-- Lexicographic order on bit sequences, `false < true`, a proper prefix
preceding its extensions: the semantic order on key contents. -/
def bitsLtB : List Bool → List Bool → Bool
  | _, [] => false
  | [], _ :: _ => true
  | a :: as, b :: bs => (!a && b) || ((a == b) && bitsLtB as bs)

/-- The `n` low bits of a value, most significant first. -/
def bitExpand : Nat → Nat → List Bool
  | 0, _ => []
  | n + 1, x => x.testBit n :: bitExpand n x

/-- All bits of a byte string, most significant bit of the first byte
first. -/
def bytesBits : List Nat → List Bool
  | [] => []
  | x :: xs => bitExpand 8 x ++ bytesBits xs

theorem bitExpand_length (n x : Nat) : (bitExpand n x).length = n := by
  induction n generalizing x with
  | zero => rfl
  | succ n ih => simp [bitExpand, ih]

theorem bytesBits_length (v : List Nat) : (bytesBits v).length = 8 * v.length := by
  induction v with
  | nil => rfl
  | cons x xs ih =>
    simp [bytesBits, bitExpand_length, ih]
    ring

theorem bitExpand_congr {n x y : Nat} (h : ∀ i, i < n → x.testBit i = y.testBit i) :
    bitExpand n x = bitExpand n y := by
  induction n with
  | zero => rfl
  | succ n ih =>
    simp only [bitExpand, List.cons.injEq]
    exact ⟨h n (by omega), ih (fun i hi => h i (by omega))⟩

theorem bitExpand_mod (n x : Nat) : bitExpand n (x % 2 ^ n) = bitExpand n x :=
  bitExpand_congr (fun i hi => by rw [Nat.testBit_mod_two_pow, decide_eq_true hi,
    Bool.true_and])

theorem bitExpand_getD (n z : Nat) : ∀ m, m < n →
    (bitExpand n z).getD m false = z.testBit (n - 1 - m) := by
  induction n with
  | zero => omega
  | succ n ih =>
    intro m hm
    cases m with
    | zero =>
      simp [bitExpand]
    | succ m =>
      simp only [bitExpand, List.getD_cons_succ]
      rw [ih m (by omega)]
      congr 1
      omega

theorem bitExpand_inj {n x y : Nat} (hx : x < 2 ^ n) (hy : y < 2 ^ n)
    (h : bitExpand n x = bitExpand n y) : x = y := by
  refine Nat.eq_of_testBit_eq ?_
  intro i
  by_cases hi : i < n
  · have hgd : (bitExpand n x).getD (n - 1 - i) false =
        (bitExpand n y).getD (n - 1 - i) false := by
      rw [h]
    rw [bitExpand_getD n x _ (by omega), bitExpand_getD n y _ (by omega)] at hgd
    have e : n - 1 - (n - 1 - i) = i := by omega
    rwa [e] at hgd
  · rw [testBit_tokval_high hx (by omega), testBit_tokval_high hy (by omega)]

theorem bitsLtB_bitExpand_iff : ∀ (n x y : Nat), x < 2 ^ n → y < 2 ^ n →
    (bitsLtB (bitExpand n x) (bitExpand n y) = true ↔ x < y) := by
  intro n
  induction n with
  | zero =>
    intro x y hx hy
    have h1 : (2 : Nat) ^ 0 = 1 := rfl
    rw [h1] at hx hy
    interval_cases x
    interval_cases y
    simp [bitExpand, bitsLtB]
  | succ n ih =>
    intro x y hx hy
    simp only [bitExpand, bitsLtB, Bool.or_eq_true, Bool.and_eq_true, beq_iff_eq]
    have hpow : (2 : Nat) ^ (n + 1) = 2 ^ n * 2 := by ring
    have hxd := Nat.div_add_mod x (2 ^ n)
    have hyd := Nat.div_add_mod y (2 ^ n)
    have hpos : 0 < 2 ^ n := Nat.pos_pow_of_pos n (by norm_num)
    have hxm : x % 2 ^ n < 2 ^ n := Nat.mod_lt _ hpos
    have hym : y % 2 ^ n < 2 ^ n := Nat.mod_lt _ hpos
    have hxd2 : x / 2 ^ n < 2 := Nat.div_lt_of_lt_mul (by rw [← hpow]; exact hx)
    have hyd2 : y / 2 ^ n < 2 := Nat.div_lt_of_lt_mul (by rw [← hpow]; exact hy)
    have hxb : x.testBit n = decide (x / 2 ^ n = 1) := by
      rw [Nat.testBit_to_div_mod, Nat.mod_eq_of_lt hxd2]
    have hyb : y.testBit n = decide (y / 2 ^ n = 1) := by
      rw [Nat.testBit_to_div_mod, Nat.mod_eq_of_lt hyd2]
    rw [← bitExpand_mod n x, ← bitExpand_mod n y, ih _ _ hxm hym, hxb, hyb]
    interval_cases hx1 : x / 2 ^ n <;> interval_cases hy1 : y / 2 ^ n <;>
      simp_all <;> omega

theorem bitsLtB_append_iff : ∀ (a b c d : List Bool), a.length = b.length →
    (bitsLtB (a ++ c) (b ++ d) = true ↔
      (bitsLtB a b = true ∨ (a = b ∧ bitsLtB c d = true))) := by
  intro a
  induction a with
  | nil =>
    intro b c d hlen
    have hb : b = [] := List.length_eq_zero.mp (by simpa using hlen.symm)
    subst hb
    simp [bitsLtB]
  | cons x a ih =>
    intro b c d hlen
    cases b with
    | nil => simp at hlen
    | cons y b =>
      simp only [List.cons_append, List.append_eq, bitsLtB, Bool.or_eq_true,
        Bool.and_eq_true, beq_iff_eq, List.cons.injEq]
      rw [ih b c d (by simpa using hlen)]
      cases x <;> cases y <;> simp <;> tauto

theorem bytesBits_cons (x : Nat) (xs : List Nat) :
    bytesBits (x :: xs) = bitExpand 8 x ++ bytesBits xs := rfl

theorem listLtB_iff_bytesBits : ∀ (u v : List Nat), (∀ b ∈ u, b < 256) →
    (∀ b ∈ v, b < 256) →
    (listLtB u v = true ↔ bitsLtB (bytesBits u) (bytesBits v) = true) := by
  intro u
  induction u with
  | nil =>
    intro v hu hv
    cases v with
    | nil => simp [listLtB, bytesBits, bitsLtB]
    | cons y ys =>
      simp only [listLtB, bytesBits, bitExpand]
      simp [bitsLtB]
  | cons x xs ih =>
    intro v hu hv
    cases v with
    | nil =>
      simp only [listLtB, bytesBits]
      constructor
      · intro h
        exact absurd h (by simp)
      · intro h
        simp only [bytesBits, bitExpand, List.cons_append, bitsLtB] at h
        exact h
    | cons y ys =>
      rw [bytesBits_cons, bytesBits_cons,
        bitsLtB_append_iff _ _ _ _ (by rw [bitExpand_length, bitExpand_length])]
      have hx : x < 256 := hu x (by simp)
      have hy : y < 256 := hv y (by simp)
      rw [bitsLtB_bitExpand_iff 8 x y hx hy]
      simp only [listLtB, Bool.or_eq_true, Bool.and_eq_true, decide_eq_true_eq]
      rw [ih ys (fun b hb => hu b (by simp [hb])) (fun b hb => hv b (by simp [hb]))]
      constructor
      · rintro (h | ⟨rfl, h⟩)
        · exact Or.inl h
        · exact Or.inr ⟨rfl, h⟩
      · rintro (h | ⟨he, h⟩)
        · exact Or.inl h
        · exact Or.inr ⟨bitExpand_inj hx hy he, h⟩

theorem bitsLtB_rep_right : ∀ (u : List Bool) (n : Nat),
    (bitsLtB u (List.replicate n false) = true ↔
      (u = List.replicate u.length false ∧ u.length < n)) := by
  intro u
  induction u with
  | nil =>
    intro n
    cases n with
    | zero => simp [bitsLtB]
    | succ n => simp [bitsLtB, List.replicate]
  | cons x u ih =>
    intro n
    cases n with
    | zero => simp [bitsLtB]
    | succ n =>
      simp only [List.replicate, bitsLtB, Bool.or_eq_true, Bool.and_eq_true, beq_iff_eq,
        List.length_cons, List.cons.injEq]
      rw [ih n]
      cases x <;> simp <;> omega

theorem bitsLtB_rep_left : ∀ (v : List Bool) (m : Nat),
    (bitsLtB (List.replicate m false) v = true ↔
      (v ≠ List.replicate v.length false ∨ m < v.length)) := by
  intro v
  induction v with
  | nil =>
    intro m
    cases m with
    | zero => simp [bitsLtB]
    | succ m => simp [bitsLtB, List.replicate]
  | cons y v ih =>
    intro m
    cases m with
    | zero =>
      simp [bitsLtB]
    | succ m =>
      simp only [List.replicate, bitsLtB, Bool.or_eq_true, Bool.and_eq_true, beq_iff_eq,
        List.length_cons, List.cons.injEq, ne_eq]
      rw [ih m]
      cases y <;> simp <;> omega

theorem bitsLtB_pad : ∀ (a b : List Bool) (p1 p2 L1 L2 : Nat),
    ((a.length : Int) - (b.length : Int) = (L1 : Int) - (L2 : Int)) →
    (a.length ≤ b.length → p1 ≤ b.length - a.length + p2) →
    (b.length ≤ a.length → p2 ≤ a.length - b.length + p1) →
    ((bitsLtB (a ++ List.replicate p1 false) (b ++ List.replicate p2 false) = true ∨
      (a ++ List.replicate p1 false = b ++ List.replicate p2 false ∧ L1 < L2)) ↔
      bitsLtB a b = true) := by
  intro a
  induction a with
  | nil =>
    intro b p1 p2 L1 L2 h h1 h2
    cases b with
    | nil =>
      have hpp : p1 = p2 := by
        have ha := h1 (by omega)
        have hb := h2 (by omega)
        omega
      subst hpp
      have hLL : L1 = L2 := by
        simp only [List.length_nil] at h
        omega
      simp only [List.nil_append]
      rw [bitsLtB_rep_left]
      simp only [List.length_replicate]
      constructor
      · rintro (h3 | ⟨-, h4⟩)
        · rcases h3 with h3 | h3
          · exact absurd rfl h3
          · omega
        · omega
      · intro h3
        exact absurd h3 (by simp [bitsLtB])
    | cons y b =>
      simp only [List.nil_append]
      have hL : L1 < L2 := by
        simp only [List.length_nil, List.length_cons] at h
        omega
      have hp1 : p1 ≤ (y :: b).length + p2 := by
        have := h1 (by simp)
        simpa using this
      constructor
      · intro
        simp [bitsLtB]
      · intro
        by_cases hfst : bitsLtB (List.replicate p1 false)
            ((y :: b) ++ List.replicate p2 false) = true
        · exact Or.inl hfst
        · rw [bitsLtB_rep_left] at hfst
          push_neg at hfst
          obtain ⟨hrep, hlen⟩ := hfst
          right
          have hVlen : ((y :: b) ++ List.replicate p2 false).length =
              (y :: b).length + p2 := by
            simp
            omega
          have hp1e : p1 = ((y :: b) ++ List.replicate p2 false).length := by omega
          refine ⟨?_, hL⟩
          rw [hp1e]
          exact hrep.symm
  | cons x a ih =>
    intro b p1 p2 L1 L2 h h1 h2
    cases b with
    | nil =>
      constructor
      · rintro (hlt | ⟨heq, hLL⟩)
        · exfalso
          rw [List.nil_append, bitsLtB_rep_right] at hlt
          have := h2 (by simp)
          simp only [List.length_append, List.length_cons, List.length_replicate] at hlt this
          omega
        · exfalso
          simp only [List.length_cons, List.length_nil] at h
          omega
      · intro hfalse
        exact absurd hfalse (by simp [bitsLtB])
    | cons y b =>
      have hIH := ih b p1 p2 L1 L2 (by simp only [List.length_cons] at h ⊢; omega)
        (by intro hab; have := h1 (by simpa using Nat.succ_le_succ hab); simp at this ⊢; omega)
        (by intro hab; have := h2 (by simpa using Nat.succ_le_succ hab); simp at this ⊢; omega)
      simp only [List.cons_append, bitsLtB, Bool.or_eq_true, Bool.and_eq_true,
        beq_iff_eq, List.cons.injEq, List.append_eq]
      cases x <;> cases y <;> simp_all

theorem getD_append_bool (l r : List Bool) (i : Nat) :
    (l ++ r).getD i false =
      if i < l.length then l.getD i false else r.getD (i - l.length) false := by
  rw [List.getD_eq_getElem?_getD, List.getElem?_append]
  split <;> rw [List.getD_eq_getElem?_getD]

theorem list_eq_of_getD_bool {l1 l2 : List Bool} (hlen : l1.length = l2.length)
    (h : ∀ i, i < l1.length → l1.getD i false = l2.getD i false) : l1 = l2 := by
  refine List.ext_getElem hlen ?_
  intro i h1 h2
  have hd := h i h1
  rw [List.getD_eq_getElem?_getD, List.getD_eq_getElem?_getD,
    List.getElem?_eq_getElem h1, List.getElem?_eq_getElem h2] at hd
  simpa using hd

theorem list_eq_of_getD_nat {l1 l2 : List Nat} (hlen : l1.length = l2.length)
    (h : ∀ i, i < l1.length → l1.getD i 0 = l2.getD i 0) : l1 = l2 := by
  refine List.ext_getElem hlen ?_
  intro i h1 h2
  have hd := h i h1
  rw [List.getD_eq_getElem?_getD, List.getD_eq_getElem?_getD,
    List.getElem?_eq_getElem h1, List.getElem?_eq_getElem h2] at hd
  simpa using hd

theorem bytesBits_getD : ∀ (v : List Nat) (i : Nat),
    (bytesBits v).getD i false =
      if i < 8 * v.length then (v.getD (i / 8) 0).testBit (7 - i % 8) else false := by
  intro v
  induction v with
  | nil =>
    intro i
    simp [bytesBits]
  | cons x xs ih =>
    intro i
    rw [bytesBits_cons, getD_append_bool, bitExpand_length]
    by_cases hi : i < 8
    · rw [if_pos hi, bitExpand_getD 8 x i hi]
      rw [if_pos (by simp; omega)]
      have e1 : i / 8 = 0 := by omega
      have e2 : i % 8 = i := by omega
      rw [e1, e2, List.getD_cons_zero]
    · rw [if_neg hi, ih (i - 8)]
      obtain ⟨n, hn⟩ : ∃ n, i / 8 = n + 1 := ⟨i / 8 - 1, by omega⟩
      by_cases hlt : i - 8 < 8 * xs.length
      · rw [if_pos hlt, if_pos (by simp; omega), hn, List.getD_cons_succ]
        have e1 : (i - 8) / 8 = n := by omega
        have e2 : (i - 8) % 8 = i % 8 := by omega
        rw [e1, e2]
      · rw [if_neg hlt, if_neg (by simp; omega)]

theorem bytesBits_inj {v1 v2 : List Nat} (hb1 : ∀ j, v1.getD j 0 < 256)
    (hb2 : ∀ j, v2.getD j 0 < 256) (h : bytesBits v1 = bytesBits v2) : v1 = v2 := by
  have hlen : v1.length = v2.length := by
    have := congrArg List.length h
    rw [bytesBits_length, bytesBits_length] at this
    omega
  refine list_eq_of_getD_nat hlen ?_
  intro j hj
  refine byte_eq_of_bits (hb1 j) (hb2 j) ?_
  intro b hb
  have hgd := congrArg (fun l => l.getD (8 * j + b) false) h
  simp only [bytesBits_getD] at hgd
  rw [if_pos (by omega), if_pos (by omega)] at hgd
  have e1 : (8 * j + b) / 8 = j := by omega
  have e2 : (8 * j + b) % 8 = b := by omega
  rw [e1, e2] at hgd
  exact hgd

theorem bytesBits_decomp {k : Key} (hk : KeyWF k) :
    bytesBits k.value =
      keyBits k ++ List.replicate (8 * k.value.length - k.length) false := by
  have hspec := bytesNeeded_spec k.length
  have hlen8 : k.length ≤ 8 * k.value.length := by
    rw [hk.vlen]
    omega
  refine list_eq_of_getD_bool ?_ ?_
  · rw [bytesBits_length, List.length_append, List.length_replicate]
    simp only [keyBits, List.length_map, List.length_range]
    omega
  · intro i hi
    rw [bytesBits_length] at hi
    rw [bytesBits_getD, if_pos hi, getD_append_bool]
    simp only [keyBits, List.length_map, List.length_range]
    by_cases hik : i < k.length
    · rw [if_pos hik, getD_range_map_bool, if_pos hik, kbit_eq]
    · rw [if_neg hik]
      have : (List.replicate (8 * k.value.length - k.length) false).getD
          (i - k.length) false = false := by
        rw [List.getD_eq_getElem?_getD, List.getElem?_replicate]
        split <;> rfl
      rw [this]
      have := hk.vtrail i (by omega)
      rw [kbit_eq] at this
      exact this

theorem mem_lt_256_of_getD {v : List Nat} (h : ∀ j, v.getD j 0 < 256) :
    ∀ b ∈ v, b < 256 := by
  intro b hb
  obtain ⟨j, hj, rfl⟩ := List.mem_iff_getElem.mp hb
  have := h j
  rw [List.getD_eq_getElem?_getD, List.getElem?_eq_getElem hj] at this
  simpa using this

theorem keyLess_iff_bits {k1 k2 : Key} (h1 : KeyWF k1) (h2 : KeyWF k2) :
    keyLess k1 k2 = bitsLtB (keyBits k1) (keyBits k2) := by
  refine bool_eq_of_iff ?_
  unfold keyLess
  rw [Bool.or_eq_true, Bool.and_eq_true, decide_eq_true_eq, decide_eq_true_eq]
  rw [listLtB_iff_bytesBits _ _ (mem_lt_256_of_getD h1.vbytes) (mem_lt_256_of_getD h2.vbytes)]
  have hval_iff : k1.value = k2.value ↔
      keyBits k1 ++ List.replicate (8 * k1.value.length - k1.length) false =
        keyBits k2 ++ List.replicate (8 * k2.value.length - k2.length) false := by
    rw [← bytesBits_decomp h1, ← bytesBits_decomp h2]
    constructor
    · intro h
      rw [h]
    · exact bytesBits_inj h1.vbytes h2.vbytes
  rw [hval_iff, bytesBits_decomp h1, bytesBits_decomp h2]
  have hK1 := bytesNeeded_spec k1.length
  have hK2 := bytesNeeded_spec k2.length
  have hlenA : (keyBits k1).length = k1.length := by
    simp [keyBits]
  have hlenB : (keyBits k2).length = k2.length := by
    simp [keyBits]
  refine bitsLtB_pad (keyBits k1) (keyBits k2) _ _ k1.length k2.length
    (by rw [hlenA, hlenB]) ?_ ?_
  · intro hab
    rw [hlenA, hlenB] at hab ⊢
    rw [h1.vlen, h2.vlen]
    have := bytesNeeded_mono hab
    omega
  · intro hab
    rw [hlenA, hlenB] at hab ⊢
    rw [h1.vlen, h2.vlen]
    have := bytesNeeded_mono hab
    omega

theorem keyGreater_eq_keyLess (k1 k2 : Key) : keyGreater k1 k2 = keyLess k2 k1 := by
  unfold keyGreater keyLess
  congr 1
  congr 1
  simp only [eq_comm]

/-- C9: every key produced by the public constructors and transformations
(`ToKey`, `Append`, `AppendExtend`, `Skip`, `Take`) satisfies the
representation invariant (buffer of exactly `ceil(length/8)` bytes with all
trailing bits zero), and consequently raw equality of two such keys
coincides with equality of their semantic bit contents plus lengths, and the
raw byte-string comparison `Less`/`Greater` coincides with the
bit-lexicographic comparison of their semantic bit contents (with length as
the tie-break, a proper prefix ordering first). -/
theorem C9_representation_invariant :
    (∀ bs : List Nat, (∀ j, bs.getD j 0 < 256) → KeyWF (toKey bs)) ∧
    (∀ (k : Key) (t : Token), KeyWF k → t.value < 2 ^ t.length →
      KeyWF (keyAppend k t)) ∧
    (∀ (k ext : Key) (t : Token), KeyWF k → KeyWF ext → t.value < 2 ^ t.length →
      KeyWF (appendExtend k t ext)) ∧
    (∀ (k : Key) (n : Nat), KeyWF k → KeyWF (keySkip k n)) ∧
    (∀ (k : Key) (n : Nat), KeyWF k → KeyWF (keyTake k n)) ∧
    (∀ k1 k2 : Key, KeyWF k1 → KeyWF k2 →
      (k1 = k2 ↔ (k1.length = k2.length ∧ keyBits k1 = keyBits k2))) ∧
    (∀ k1 k2 : Key, KeyWF k1 → KeyWF k2 →
      keyLess k1 k2 = bitsLtB (keyBits k1) (keyBits k2) ∧
      keyGreater k1 k2 = bitsLtB (keyBits k2) (keyBits k1)) := by
  refine ⟨wf_toKey, fun k t hk hv => wf_keyAppend hk hv,
    fun k ext t hk hext hv => wf_appendExtend hk hext hv,
    fun k n hk => wf_keySkip hk n, fun k n hk => wf_keyTake hk n, ?_, ?_⟩
  · intro k1 k2 h1 h2
    rw [key_eq_iff h1 h2, keyBits_eq_iff]
    constructor
    · rintro ⟨hl, hb⟩
      exact ⟨hl, hl, hb⟩
    · rintro ⟨hl, -, hb⟩
      exact ⟨hl, hb⟩
  · intro k1 k2 h1 h2
    exact ⟨keyLess_iff_bits h1 h2,
      (keyGreater_eq_keyLess k1 k2).trans (keyLess_iff_bits h2 h1)⟩

theorem C9_representation_invariant_witness :
    KeyWF (keySkip (toKey [18, 52]) 3) ∧
    keyLess (toKey [18]) (toKey [200]) =
      bitsLtB (keyBits (toKey [18])) (keyBits (toKey [200])) := by
  have hk1 : KeyWF (toKey [18, 52]) :=
    C9_representation_invariant.1 _ (getD_lt_256_of_all (by decide))
  have hk2 : KeyWF (toKey [18]) :=
    C9_representation_invariant.1 _ (getD_lt_256_of_all (by decide))
  have hk3 : KeyWF (toKey [200]) :=
    C9_representation_invariant.1 _ (getD_lt_256_of_all (by decide))
  exact ⟨C9_representation_invariant.2.2.2.1 _ 3 hk1,
    (C9_representation_invariant.2.2.2.2.2.2 _ _ hk2 hk3).1⟩

theorem C4_appendExtend_amended_witness :
    (appendExtend (keyTake (toKey [255]) 4) ⟨4, 10⟩ (toKey [18])).length =
      (keyTake (toKey [255]) 4).length + 4 + 8 ∧
    keyBits (appendExtend (keyTake (toKey [255]) 4) ⟨4, 10⟩ (toKey [18])) =
      keyBits (keyTake (toKey [255]) 4) ++ tokenBits ⟨4, 10⟩ ++ keyBits (toKey [18]) := by
  have hk : KeyWF (keyTake (toKey [255]) 4) :=
    wf_keyTake (wf_toKey _ (getD_lt_256_of_all (by decide))) 4
  have he : KeyWF (toKey [18]) := wf_toKey _ (getD_lt_256_of_all (by decide))
  exact C4_appendExtend_amended (keyTake (toKey [255]) 4) (toKey [18]) ⟨4, 10⟩ hk he
    (by norm_num) (by decide)

theorem C10_iteratedHasPfx_amended_witness :
    iteratedHasPfx (toKey [18, 52]) (keyTake (toKey [35]) 4) 8 4 =
      hasPfx (keySkip (toKey [18, 52]) 8) (keyTake (toKey [35]) 4) := by
  have hk : KeyWF (toKey [18, 52]) := wf_toKey _ (getD_lt_256_of_all (by decide))
  have hp : KeyWF (keyTake (toKey [35]) 4) :=
    wf_keyTake (wf_toKey _ (getD_lt_256_of_all (by decide))) 4
  exact C10_iteratedHasPfx_amended (toKey [18, 52]) (keyTake (toKey [35]) 4) 8 4 hk hp
    (by norm_num) (by decide) (by decide) (by decide)

/-!
### Proof iterator (`proof_iterator.go`)

The iterator works on the token-per-byte `path` type: a Go string whose
bytes are token values, modelled as `List Nat`.  IDs (`ids.ID`) are opaque;
they are modelled as `Nat` with `0` for `ids.Empty`.  `ProofNode.Children`
is a Go map from token byte to ID, modelled as an association list with
unique token keys.  `NodeBranchFactor` is 16 in this file.  The Go code
precomputes `nodeToPath`, `nodeToBranchIndex` and `nodeToID` as maps keyed
by node index; they are modelled as index functions with the Go zero value
(`EmptyPath` / `ids.Empty`) for missing entries.
-/

/-- A `merkledb.ProofNode`: its deserialized key path (one token per entry)
and its children map (token value to child ID). -/
structure PNode where
  keyPath : List Nat
  children : List (Nat × Nat)
deriving DecidableEq, Repr

def emptyPNode : PNode := ⟨[], []⟩

/-- Go map read `node.Children[c]`. -/
def childLookup (node : PNode) (c : Nat) : Option Nat :=
  (node.children.find? (fun p => p.1 == c)).map (fun p => p.2)

/-- Go `strings.Compare` on token strings (`path.Compare`). -/
def pathCompare : List Nat → List Nat → Int
  | [], [] => 0
  | [], _ :: _ => -1
  | _ :: _, [] => 1
  | a :: as, b :: bs => if a < b then -1 else if b < a then 1 else pathCompare as bs

/-- Go `iter.nodeToPath`: the path of proof node `i` (`EmptyPath` beyond the
proof). -/
def nodeToPath (proof : List PNode) (i : Nat) : List Nat :=
  (proof.getD i emptyPNode).keyPath

/-- Go `iter.nodeToBranchIndex`: the child token of node `i` leading to node
`i+1` (`nextPath[len(myPath)]`; the Go code would panic on a malformed proof
whose next path is not longer, modelled as token 0). -/
def nodeToBranchIndex (proof : List PNode) (i : Nat) : Nat :=
  if i + 1 < proof.length then
    (nodeToPath proof (i + 1)).getD (nodeToPath proof i).length 0
  else 0

/-- Go `iter.nodeToID`: the claimed ID of proof node `i` (its parent's child
entry at the branch token; undefined — `ids.Empty` — for the root). -/
def nodeToID (proof : List PNode) (i : Nat) : Nat :=
  if 1 ≤ i ∧ i < proof.length then
    (childLookup (proof.getD (i - 1) emptyPNode) (nodeToBranchIndex proof (i - 1))).getD 0
  else 0

/-- The full key proven for child `c` of proof node `i`: the next proof
node's path when `c` is the branch token (and `i` is not the last node),
otherwise the node's path extended by the token. -/
def childKeyOf (proof : List PNode) (i c : Nat) : List Nat :=
  if i ≠ proof.length - 1 ∧ nodeToBranchIndex proof i = c then nodeToPath proof (i + 1)
  else nodeToPath proof i ++ [c]

/-- The iterator state (`proofIterator`).  `nextChild` is the
`nextChildIndex` map: `none` models a missing key (visit the node itself
next). -/
structure PIter where
  key : List Nat
  value : Nat
  exhausted : Bool
  nodeIndex : Nat
  nextChild : Nat → Option Nat
  proof : List PNode

/-- Functional update of the `nextChildIndex` map. -/
def updF (m : Nat → Option Nat) (i v : Nat) : Nat → Option Nat :=
  fun j => if j = i then some v else m j

/-- The child scan of `newProofIterator` at node `i`: the first token
`c ∈ [0,16)` with an existing child whose full key is `≥ start`, paired with
whether that child is the next proof node. -/
def findChildSel (proof : List PNode) (start : List Nat) (i : Nat) : Option (Nat × Bool) :=
  ((List.range 16).find? fun c =>
      (childLookup (proof.getD i emptyPNode) c).isSome &&
        decide (pathCompare start (childKeyOf proof i c) ≤ 0)).map
    fun c => (c, decide (i ≠ proof.length - 1 ∧ nodeToBranchIndex proof i = c))

/-- The top-down search loop of `newProofIterator`, fuelled (the Go loop
runs at most `len(proof)` iterations; the fuel is initialized to that).
Returns the initial `(nodeIndex, nextChildIndex, exhausted)`. -/
def findFirst (proof : List PNode) (start : List Nat) :
    Nat → Nat → (Nat → Option Nat) → Nat × (Nat → Option Nat) × Bool
  | 0, _, acc => (proof.length - 1, acc, true)
  | fuel + 1, i, acc =>
    if i < proof.length then
      if pathCompare start (nodeToPath proof i) ≤ 0 then (i, acc, false)
      else
        match findChildSel proof start i with
        | some (c, true) => (i + 1, updF acc i (c + 1), false)
        | some (c, false) => (i, updF acc i c, false)
        | none => findFirst proof start fuel (i + 1) (updF acc i 16)
    else (proof.length - 1, acc, true)

/-- Go `newProofIterator` (assumes a non-empty proof). -/
def newProofIterator (proof : List PNode) (start : List Nat) : PIter :=
  let r := findFirst proof start proof.length 0 (fun _ => none)
  { key := [], value := 0, exhausted := r.2.2, nodeIndex := r.1, nextChild := r.2.1,
    proof := proof }

/-- The child scan of `Next`: Go's
`for j := childIdx+1; j <= 16; j++ { if children has byte(j) { next = j; break } }`
with `next` zero-initialized (note: it is never set to 16 because token 16
is never a child key, so "all children visited" is in fact unreachable). -/
def scanFrom (node : PNode) (j : Nat) : Nat :=
  (((List.range 17).drop j).find? fun c => (childLookup node c).isSome).getD 0

/-- Go `proofIterator.Next`, including its commented-out ascent loop being
absent and the `if visitedNode { childIdx = -1 }` reset exactly as written.
Returns the Go boolean result paired with the updated iterator; the emitted
key/ID pair is in the `key`/`value` fields. -/
def pNext (it : PIter) : Bool × PIter :=
  if it.exhausted then (false, { it with key := [], value := 0 })
  else
    let node := it.proof.getD it.nodeIndex emptyPNode
    let cv := it.nextChild it.nodeIndex
    let visitedNode := cv.isSome
    let childIdx0 : Nat := cv.getD 0
    let key := if visitedNode then nodeToPath it.proof it.nodeIndex ++ [childIdx0 % 256]
      else nodeToPath it.proof it.nodeIndex
    let value := if visitedNode then (childLookup node (childIdx0 % 256)).getD 0
      else nodeToID it.proof it.nodeIndex
    let childIdx : Int := if visitedNode then -1 else (childIdx0 : Int)
    let nextChildIdx := scanFrom node (childIdx + 1).toNat
    let descended : Bool := decide (it.nodeIndex ≠ it.proof.length - 1 ∧
      nodeToBranchIndex it.proof it.nodeIndex = (childIdx % 256).toNat ∧
      0 < (it.proof.getD (it.nodeIndex + 1) emptyPNode).children.length)
    let nodeIndex2 :=
      if descended then it.nodeIndex + 1
      else if nextChildIdx = 16 ∧ it.nodeIndex ≠ 0 then it.nodeIndex - 1
      else it.nodeIndex
    let exhausted2 := decide (descended = false ∧ nextChildIdx = 16 ∧ it.nodeIndex = 0)
    (true, { it with
      key := key
      value := value
      nextChild := updF it.nextChild it.nodeIndex nextChildIdx
      nodeIndex := nodeIndex2
      exhausted := exhausted2 })

/-- All key prefixes whose existence the proof establishes: every proof
node's path and every child key of every proof node. -/
def provableKeys (proof : List PNode) : List (List Nat) :=
  (List.range proof.length).flatMap fun i =>
    nodeToPath proof i :: ((List.range 16).filterMap fun c =>
      if (childLookup (proof.getD i emptyPNode) c).isSome then some (childKeyOf proof i c)
      else none)

/-- C1: the claim fails in the code.  On the one-node proof whose root has a
single child at token 0, iterating from the empty start key (the whole
keyspace) emits the key prefixes `[]`, `[0]`, `[0]`, `[0]`, … : `Next` keeps
returning `true` with the duplicate prefix `[0]` and the iterator never
reports exhaustion, because the ascent loop of `Next` is commented out, the
`if visitedNode { childIdx = -1 }` reset restarts the child scan from token
0 on every call, and `nextChildIndex` is never set to `NodeBranchFactor`.
The state after the third call repeats the state after the second call
(same node index, same `nextChildIndex` entry, not exhausted), so the
iterator loops on `[0]` forever: prefixes are not strictly increasing, a
provable prefix is visited more than once, and the final node's path is
never the last prefix emitted. -/
theorem C1_iterator_not_increasing :
    ((pNext (newProofIterator [⟨[], [(0, 7)]⟩] [])).1 = true ∧
      (pNext (newProofIterator [⟨[], [(0, 7)]⟩] [])).2.key = []) ∧
    ((pNext (pNext (newProofIterator [⟨[], [(0, 7)]⟩] [])).2).1 = true ∧
      (pNext (pNext (newProofIterator [⟨[], [(0, 7)]⟩] [])).2).2.key = [0]) ∧
    ((pNext (pNext (pNext (newProofIterator [⟨[], [(0, 7)]⟩] [])).2).2).1 = true ∧
      (pNext (pNext (pNext (newProofIterator [⟨[], [(0, 7)]⟩] [])).2).2).2.key = [0]) ∧
    (pNext (pNext (pNext (newProofIterator [⟨[], [(0, 7)]⟩] [])).2).2).2.exhausted = false ∧
    (pNext (pNext (pNext (newProofIterator [⟨[], [(0, 7)]⟩] [])).2).2).2.nodeIndex =
      (pNext (pNext (newProofIterator [⟨[], [(0, 7)]⟩] [])).2).2.nodeIndex ∧
    (pNext (pNext (pNext (newProofIterator [⟨[], [(0, 7)]⟩] [])).2).2).2.nextChild 0 =
      (pNext (pNext (newProofIterator [⟨[], [(0, 7)]⟩] [])).2).2.nextChild 0 := by
  decide

/-- C2 counterexample: the constructed iterator does not return the smallest
provable prefix `≥ start` and later emits a key `< start`.  Proof:
root `[]` with children at tokens 0 and 1, node `[0]` with a child at
token 7; start key `[0,5]`.  The provable prefix `[0,7]` (child 7 of the
second node) satisfies `start ≤ [0,7] < [1]`, yet the first key emitted is
`[1]`; the second key emitted is `[0]`, which is `< start`.  The constructor
records the selected child of the root but never positions the iterator past
the already-passed children of deeper nodes, and `Next`'s reset scan
re-visits them. -/
theorem C2_start_skip_counterexample :
    (pNext (newProofIterator [⟨[], [(0, 1), (1, 2)]⟩, ⟨[0], [(7, 3)]⟩] [0, 5])).2.key
        = [1] ∧
    (childLookup (List.getD [⟨[], [(0, 1), (1, 2)]⟩, ⟨[0], [(7, 3)]⟩] 1 emptyPNode)
        7).isSome = true ∧
    childKeyOf [⟨[], [(0, 1), (1, 2)]⟩, ⟨[0], [(7, 3)]⟩] 1 7 = [0, 7] ∧
    ([0, 7] : List Nat) ∈ provableKeys [⟨[], [(0, 1), (1, 2)]⟩, ⟨[0], [(7, 3)]⟩] ∧
    pathCompare [0, 5] [0, 7] ≤ 0 ∧
    pathCompare [0, 7] [1] < 0 ∧
    (pNext (pNext (newProofIterator [⟨[], [(0, 1), (1, 2)]⟩, ⟨[0], [(7, 3)]⟩]
        [0, 5])).2).2.key = [0] ∧
    pathCompare [0, 5] [0] > 0 := by
  decide

theorem updF_self (m : Nat → Option Nat) (i v : Nat) : updF m i v i = some v := by
  unfold updF
  rw [if_pos rfl]

theorem updF_ne (m : Nat → Option Nat) (i v j : Nat) (h : j ≠ i) : updF m i v j = m j := by
  unfold updF
  rw [if_neg h]

theorem findChildSel_spec (proof : List PNode) (start : List Nat) (i c : Nat) (b : Bool)
    (h : findChildSel proof start i = some (c, b)) :
    c < 16 ∧ (childLookup (proof.getD i emptyPNode) c).isSome = true ∧
      pathCompare start (childKeyOf proof i c) ≤ 0 ∧
      (b = true ↔ i ≠ proof.length - 1 ∧ nodeToBranchIndex proof i = c) := by
  unfold findChildSel at h
  rcases Option.map_eq_some'.mp h with ⟨a, hfind, hab⟩
  cases hab
  have hmem := List.mem_range.mp (List.mem_of_find?_eq_some hfind)
  have hp := List.find?_some hfind
  rw [Bool.and_eq_true, decide_eq_true_eq] at hp
  refine ⟨hmem, hp.1, hp.2, ?_⟩
  rw [decide_eq_true_eq]

/-- The invariant established by the `newProofIterator` search: either the
search exhausted the proof, or the selected node index is in range and the
`nextChildIndex` map at it describes what `Next` will emit first — nothing
(emit the node's own path, which is `≥ start`) or a present child token `c`
whose child key is the node's path extended by `c` and is `≥ start`. -/
def firstSel (proof : List PNode) (start : List Nat)
    (r : Nat × (Nat → Option Nat) × Bool) : Prop :=
  r.2.2 = true ∨
  (r.1 < proof.length ∧
    ((r.2.1 r.1 = none ∧ pathCompare start (nodeToPath proof r.1) ≤ 0) ∨
      (∃ c, r.2.1 r.1 = some c ∧ c < 16 ∧
        (childLookup (proof.getD r.1 emptyPNode) c).isSome = true ∧
        childKeyOf proof r.1 c = nodeToPath proof r.1 ++ [c] ∧
        pathCompare start (nodeToPath proof r.1 ++ [c]) ≤ 0)))

theorem findFirst_good (proof : List PNode) (start : List Nat) :
    ∀ fuel i acc, (∀ j, i ≤ j → acc j = none) →
      firstSel proof start (findFirst proof start fuel i acc) := by
  intro fuel
  induction fuel with
  | zero =>
    intro i acc _
    exact Or.inl rfl
  | succ fuel ih =>
    intro i acc hacc
    unfold findFirst
    by_cases hi : i < proof.length
    · rw [if_pos hi]
      by_cases hcmp : pathCompare start (nodeToPath proof i) ≤ 0
      · rw [if_pos hcmp]
        exact Or.inr ⟨hi, Or.inl ⟨hacc i le_rfl, hcmp⟩⟩
      · rw [if_neg hcmp]
        rcases hsel : findChildSel proof start i with _ | ⟨c, b⟩
        · simp only
          apply ih
          intro j hj
          rw [updF_ne _ _ _ _ (by omega)]
          exact hacc j (by omega)
        · rcases findChildSel_spec proof start i c b hsel with ⟨hc16, hsome, hcmp2, hbiff⟩
          cases b
          · have hnd : ¬(i ≠ proof.length - 1 ∧ nodeToBranchIndex proof i = c) :=
              fun hd => Bool.false_ne_true (hbiff.mpr hd)
            have hck : childKeyOf proof i c = nodeToPath proof i ++ [c] := by
              unfold childKeyOf
              rw [if_neg hnd]
            rw [hck] at hcmp2
            exact Or.inr ⟨hi, Or.inr ⟨c, updF_self acc i c, hc16, hsome, hck, hcmp2⟩⟩
          · have hd := hbiff.mp rfl
            have hck : childKeyOf proof i c = nodeToPath proof (i + 1) := by
              unfold childKeyOf
              rw [if_pos hd]
            rw [hck] at hcmp2
            have hlt : i + 1 < proof.length := by
              have := hd.1
              omega
            have hnone : updF acc i (c + 1) (i + 1) = none := by
              rw [updF_ne _ _ _ _ (by omega)]
              exact hacc (i + 1) (by omega)
            exact Or.inr ⟨hlt, Or.inl ⟨hnone, hcmp2⟩⟩
    · rw [if_neg hi]
      exact Or.inl rfl

theorem pNext_key_none (it : PIter) (hex : it.exhausted = false)
    (hcv : it.nextChild it.nodeIndex = none) :
    (pNext it).1 = true ∧ (pNext it).2.key = nodeToPath it.proof it.nodeIndex := by
  simp only [pNext, hex, hcv]
  simp

theorem pNext_key_some (it : PIter) (hex : it.exhausted = false) (c : Nat)
    (hcv : it.nextChild it.nodeIndex = some c) :
    (pNext it).1 = true ∧
      (pNext it).2.key = nodeToPath it.proof it.nodeIndex ++ [c % 256] := by
  simp only [pNext, hex, hcv]
  simp

theorem mem_provableKeys_path (proof : List PNode) (i : Nat) (hi : i < proof.length) :
    nodeToPath proof i ∈ provableKeys proof := by
  unfold provableKeys
  exact List.mem_flatMap.mpr ⟨i, List.mem_range.mpr hi, List.mem_cons_self _ _⟩

theorem mem_provableKeys_child (proof : List PNode) (i c : Nat) (hi : i < proof.length)
    (hc : c < 16) (hsome : (childLookup (proof.getD i emptyPNode) c).isSome = true) :
    childKeyOf proof i c ∈ provableKeys proof := by
  unfold provableKeys
  refine List.mem_flatMap.mpr ⟨i, List.mem_range.mpr hi, List.mem_cons_of_mem _ ?_⟩
  exact List.mem_filterMap.mpr ⟨c, List.mem_range.mpr hc, by rw [if_pos hsome]⟩

/-- C2, amended: as stated the claim is false (see the counterexample
theorem); what `newProofIterator` does guarantee is correct positioning for
the FIRST emitted pair only.  For every proof and start key, if the
constructed iterator is not exhausted then the first `Next` call succeeds,
the key it emits is `≥ start` (so the constructor never positions the
iterator on a skipped prefix), and that key is a provable prefix (a proof
node's path or a child key of a proof node).  Minimality and the later
emissions are NOT guaranteed (again see the counterexample). -/
theorem C2_start_skip_amended (proof : List PNode) (start : List Nat)
    (hex : (newProofIterator proof start).exhausted = false) :
    (pNext (newProofIterator proof start)).1 = true ∧
      pathCompare start (pNext (newProofIterator proof start)).2.key ≤ 0 ∧
      (pNext (newProofIterator proof start)).2.key ∈ provableKeys proof := by
  have hgood := findFirst_good proof start proof.length 0 (fun _ => none) (fun _ _ => rfl)
  unfold firstSel at hgood
  rcases hgood with hgood | ⟨hlt, hcase⟩
  · exact absurd hex (by rw [show (newProofIterator proof start).exhausted =
      (findFirst proof start proof.length 0 (fun _ => none)).2.2 from rfl, hgood]; simp)
  · rcases hcase with ⟨hcv, hcmp⟩ | ⟨c, hcv, hc16, hsome, hck, hcmp⟩
    · have h1 := pNext_key_none (newProofIterator proof start) hex hcv
      refine ⟨h1.1, ?_, ?_⟩
      · rw [h1.2]
        exact hcmp
      · rw [h1.2]
        exact mem_provableKeys_path proof _ hlt
    · have h1 := pNext_key_some (newProofIterator proof start) hex c hcv
      have hmod : c % 256 = c := Nat.mod_eq_of_lt (by omega)
      rw [hmod] at h1
      refine ⟨h1.1, ?_, ?_⟩
      · rw [h1.2]
        exact hcmp
      · rw [h1.2]
        have := mem_provableKeys_child proof _ c hlt hc16 hsome
        rw [hck] at this
        exact this

theorem C2_start_skip_amended_witness :
    (newProofIterator [⟨[], [(0, 7)]⟩] [0]).exhausted = false ∧
      ((pNext (newProofIterator [⟨[], [(0, 7)]⟩] [0])).1 = true ∧
        pathCompare [0] (pNext (newProofIterator [⟨[], [(0, 7)]⟩] [0])).2.key ≤ 0 ∧
        (pNext (newProofIterator [⟨[], [(0, 7)]⟩] [0])).2.key ∈
          provableKeys [⟨[], [(0, 7)]⟩]) :=
  ⟨by decide, C2_start_skip_amended [⟨[], [(0, 7)]⟩] [0] (by decide)⟩

/-!
### Node binary encoding (spec §4.2)

Modelled from the spec: the codec source itself is not part of the provided
source files (only its truncation test is), so the encoding below follows
the spec's field list — value presence flag + value bytes, child count,
then per child: token index, compressed suffix, child digest — as a
byte-oriented, length-byte-framed format with 32-byte digests, and `parse`
reads the fields sequentially, failing with a truncation error whenever a
read runs past the end of the input.
-/

/-- Modelled from the spec: a trie node as serialized — optional value and
child entries (token, compressed suffix, child digest). -/
structure MNode where
  value : Option (List Nat)
  children : List (Nat × List Nat × List Nat)
deriving DecidableEq, Repr

/-- Modelled from the spec: parse errors — `truncated` is the
"unexpected end of input" condition (`io.ErrUnexpectedEOF`), `invalid` any
other malformed-encoding condition. -/
inductive PErr where
  | truncated
  | invalid
deriving DecidableEq, Repr

def serializeChild (c : Nat × List Nat × List Nat) : List Nat :=
  [c.1] ++ [c.2.1.length] ++ c.2.1 ++ c.2.2

/-- Modelled from the spec: the canonical node encoding. -/
def serializeNode (n : MNode) : List Nat :=
  (match n.value with
    | none => [0]
    | some v => [1, v.length] ++ v) ++
  [n.children.length] ++
  n.children.flatMap serializeChild

/-- Validity of a node for the byte encoding: all framed lengths fit one
byte and digests are exactly 32 bytes. -/
def nodeWF (n : MNode) : Prop :=
  (n.value.getD []).length < 256 ∧
  n.children.length < 256 ∧
  ∀ c ∈ n.children, c.2.1.length < 256 ∧ c.2.2.length = 32

def readByte : List Nat → Except PErr (Nat × List Nat)
  | [] => Except.error PErr.truncated
  | b :: rest => Except.ok (b, rest)

def readBytes (k : Nat) (s : List Nat) : Except PErr (List Nat × List Nat) :=
  if s.length < k then Except.error PErr.truncated
  else Except.ok (s.take k, s.drop k)

def pbind {α β : Type} (p : List Nat → Except PErr (α × List Nat))
    (q : α → List Nat → Except PErr (β × List Nat)) :
    List Nat → Except PErr (β × List Nat) := fun s =>
  match p s with
  | Except.error e => Except.error e
  | Except.ok (a, r) => q a r

def parseValue : List Nat → Except PErr (Option (List Nat) × List Nat) :=
  pbind readByte fun flag =>
    if flag = 0 then fun s => Except.ok (none, s)
    else if flag = 1 then
      pbind readByte fun len =>
        pbind (readBytes len) fun v s => Except.ok (some v, s)
    else fun _ => Except.error PErr.invalid

def parseChild : List Nat → Except PErr ((Nat × List Nat × List Nat) × List Nat) :=
  pbind readByte fun tok =>
    pbind readByte fun slen =>
      pbind (readBytes slen) fun suffix =>
        pbind (readBytes 32) fun digest s => Except.ok ((tok, suffix, digest), s)

def parseChildren : Nat → List Nat → Except PErr (List (Nat × List Nat × List Nat) × List Nat)
  | 0 => fun s => Except.ok ([], s)
  | k + 1 =>
    pbind parseChild fun c =>
      pbind (parseChildren k) fun cs s => Except.ok (c :: cs, s)

def parseNodeAux : List Nat → Except PErr (MNode × List Nat) :=
  pbind parseValue fun v =>
    pbind readByte fun cnt =>
      pbind (parseChildren cnt) fun cs s => Except.ok (⟨v, cs⟩, s)

/-- Modelled from the spec: `parse(bytes)` — run the sequential field reads
and return the node. -/
def parseNode (data : List Nat) : Except PErr MNode :=
  match parseNodeAux data with
  | Except.error e => Except.error e
  | Except.ok (n, _) => Except.ok n

/-- `p` consumes exactly `xs` producing `a`: on `xs` plus anything it
succeeds leaving the rest, and on every strict prefix of `xs` it fails with
the truncation error. -/
def Consumes {α : Type} (p : List Nat → Except PErr (α × List Nat))
    (xs : List Nat) (a : α) : Prop :=
  (∀ rest, p (xs ++ rest) = Except.ok (a, rest)) ∧
  (∀ i, i < xs.length → p (xs.take i) = Except.error PErr.truncated)

theorem Consumes_pure {α : Type} (a : α) :
    Consumes (fun s => Except.ok (a, s)) [] a :=
  ⟨fun _ => rfl, fun i hi => absurd hi (by simp)⟩

theorem Consumes_readByte (b : Nat) : Consumes readByte [b] b := by
  constructor
  · intro rest
    rfl
  · intro i hi
    have : i = 0 := by simpa using hi
    subst this
    rfl

theorem Consumes_readBytes (xs : List Nat) : Consumes (readBytes xs.length) xs xs := by
  constructor
  · intro rest
    unfold readBytes
    rw [if_neg (by simp)]
    rw [List.take_left, List.drop_left]
  · intro i hi
    unfold readBytes
    rw [if_pos]
    rw [List.length_take]
    omega

theorem Consumes_bind {α β : Type} (p : List Nat → Except PErr (α × List Nat))
    (q : α → List Nat → Except PErr (β × List Nat)) {xs : List Nat} {a : α}
    {ys : List Nat} {b : β} (hp : Consumes p xs a) (hq : Consumes (q a) ys b) :
    Consumes (pbind p q) (xs ++ ys) b := by
  constructor
  · intro rest
    unfold pbind
    rw [List.append_assoc, hp.1 (ys ++ rest)]
    exact hq.1 rest
  · intro i hi
    rw [List.length_append] at hi
    unfold pbind
    by_cases hix : i < xs.length
    · have ht : (xs ++ ys).take i = xs.take i := by
        rw [List.take_append_eq_append_take, show i - xs.length = 0 from by omega]
        simp
      rw [ht, hp.2 i hix]
    · have ht : (xs ++ ys).take i = xs ++ ys.take (i - xs.length) := by
        rw [List.take_append_eq_append_take, List.take_of_length_le (by omega)]
      rw [ht, hp.1 (ys.take (i - xs.length))]
      exact hq.2 (i - xs.length) (by omega)

theorem Consumes_parseValue_none : Consumes parseValue [0] none := by
  have h := Consumes_bind readByte
    (fun flag =>
      if flag = 0 then fun s => Except.ok (none, s)
      else if flag = 1 then
        pbind readByte fun len =>
          pbind (readBytes len) fun v s => Except.ok (some v, s)
      else fun _ => Except.error PErr.invalid)
    (Consumes_readByte 0) (Consumes_pure (none : Option (List Nat)))
  simpa using h

theorem Consumes_parseValue_some (v : List Nat) :
    Consumes parseValue ([1, v.length] ++ v) (some v) := by
  have hinner : Consumes (pbind (readBytes v.length) fun w s => Except.ok (some w, s))
      (v ++ []) (some v) :=
    Consumes_bind (readBytes v.length) (fun w s => Except.ok (some w, s))
      (Consumes_readBytes v) (Consumes_pure (some v))
  have hlen : Consumes (pbind readByte fun len =>
      pbind (readBytes len) fun w s => Except.ok (some w, s))
      ([v.length] ++ (v ++ [])) (some v) :=
    Consumes_bind readByte
      (fun len => pbind (readBytes len) fun w s => Except.ok (some w, s))
      (Consumes_readByte v.length) hinner
  have h := Consumes_bind readByte
    (fun flag =>
      if flag = 0 then fun s => Except.ok (none, s)
      else if flag = 1 then
        pbind readByte fun len =>
          pbind (readBytes len) fun v s => Except.ok (some v, s)
      else fun _ => Except.error PErr.invalid)
    (Consumes_readByte 1) hlen
  simpa using h

theorem Consumes_parseChild (c : Nat × List Nat × List Nat) (h32 : c.2.2.length = 32) :
    Consumes parseChild (serializeChild c) c := by
  have hdig : Consumes (readBytes 32) c.2.2 c.2.2 := by
    rw [← h32]
    exact Consumes_readBytes c.2.2
  have h4 : Consumes (pbind (readBytes 32) fun digest s =>
      Except.ok ((c.1, c.2.1, digest), s)) (c.2.2 ++ []) c :=
    Consumes_bind (readBytes 32) (fun digest s => Except.ok ((c.1, c.2.1, digest), s))
      hdig (Consumes_pure (c.1, c.2.1, c.2.2))
  have h3 : Consumes (pbind (readBytes c.2.1.length) fun suffix =>
      pbind (readBytes 32) fun digest s => Except.ok ((c.1, suffix, digest), s))
      (c.2.1 ++ (c.2.2 ++ [])) c :=
    Consumes_bind (readBytes c.2.1.length)
      (fun suffix => pbind (readBytes 32) fun digest s =>
        Except.ok ((c.1, suffix, digest), s))
      (Consumes_readBytes c.2.1) h4
  have h2 : Consumes (pbind readByte fun slen =>
      pbind (readBytes slen) fun suffix =>
        pbind (readBytes 32) fun digest s => Except.ok ((c.1, suffix, digest), s))
      ([c.2.1.length] ++ (c.2.1 ++ (c.2.2 ++ []))) c :=
    Consumes_bind readByte
      (fun slen => pbind (readBytes slen) fun suffix =>
        pbind (readBytes 32) fun digest s => Except.ok ((c.1, suffix, digest), s))
      (Consumes_readByte c.2.1.length) h3
  have h1 := Consumes_bind readByte
    (fun tok => pbind readByte fun slen =>
      pbind (readBytes slen) fun suffix =>
        pbind (readBytes 32) fun digest s => Except.ok ((tok, suffix, digest), s))
    (Consumes_readByte c.1) h2
  unfold serializeChild
  simpa [List.append_assoc] using h1

theorem Consumes_parseChildren (cs : List (Nat × List Nat × List Nat))
    (h32 : ∀ c ∈ cs, c.2.2.length = 32) :
    Consumes (parseChildren cs.length) (cs.flatMap serializeChild) cs := by
  induction cs with
  | nil => exact Consumes_pure []
  | cons c cs ih =>
    have hc := Consumes_parseChild c (h32 c (List.mem_cons_self _ _))
    have hrest := ih (fun d hd => h32 d (List.mem_cons_of_mem _ hd))
    have hinner : Consumes (pbind (parseChildren cs.length) fun cs' s =>
        Except.ok (c :: cs', s)) (cs.flatMap serializeChild ++ []) (c :: cs) :=
      Consumes_bind (parseChildren cs.length) (fun cs' s => Except.ok (c :: cs', s))
        hrest (Consumes_pure (c :: cs))
    have h := Consumes_bind parseChild
      (fun c' => pbind (parseChildren cs.length) fun cs' s => Except.ok (c' :: cs', s))
      hc hinner
    simpa [List.flatMap_cons] using h

theorem Consumes_parseNodeAux (n : MNode) (hwf : nodeWF n) :
    Consumes parseNodeAux (serializeNode n) n := by
  obtain ⟨v, cs⟩ := n
  have h32 : ∀ c ∈ cs, c.2.2.length = 32 := fun c hc => (hwf.2.2 c hc).2
  have hchildren : Consumes (pbind (parseChildren cs.length) fun cs' s =>
      Except.ok ((⟨v, cs'⟩ : MNode), s)) (cs.flatMap serializeChild ++ []) (⟨v, cs⟩ : MNode) :=
    Consumes_bind (parseChildren cs.length)
      (fun cs' s => Except.ok ((⟨v, cs'⟩ : MNode), s))
      (Consumes_parseChildren cs h32) (Consumes_pure (⟨v, cs⟩ : MNode))
  have hcnt : Consumes (pbind readByte fun cnt =>
      pbind (parseChildren cnt) fun cs' s => Except.ok ((⟨v, cs'⟩ : MNode), s))
      ([cs.length] ++ (cs.flatMap serializeChild ++ [])) (⟨v, cs⟩ : MNode) :=
    Consumes_bind readByte
      (fun cnt => pbind (parseChildren cnt) fun cs' s =>
        Except.ok ((⟨v, cs'⟩ : MNode), s))
      (Consumes_readByte cs.length) hchildren
  have hval : Consumes parseValue
      (match v with
        | none => [0]
        | some w => [1, w.length] ++ w) v := by
    cases v
    · exact Consumes_parseValue_none
    · exact Consumes_parseValue_some _
  have h := Consumes_bind parseValue
    (fun val => pbind readByte fun cnt =>
      pbind (parseChildren cnt) fun cs' s => Except.ok ((⟨val, cs'⟩ : MNode), s))
    hval hcnt
  cases v
  · simpa [serializeNode, List.append_assoc] using h
  · simpa [serializeNode, List.append_assoc] using h

/-- C8: for every valid node and its serialized encoding (length `N`), the
parser accepts the full encoding and returns exactly that node, and every
strict prefix of the encoding — in particular every length `1..N-1` — fails
with the truncation ("unexpected end of input") error, never a partial or
garbage node.  Modelled from the spec: the codec itself is not among the
provided sources; the encoding follows §4.2's field list with length-byte
framing and fixed 32-byte digests, and each field is read sequentially with
bounds-checked reads, so the first read that would cross the cut fails with
the truncation error. -/
theorem C8_parse_truncation (n : MNode) (hwf : nodeWF n) :
    parseNode (serializeNode n) = Except.ok n ∧
    ∀ i, i < (serializeNode n).length →
      parseNode ((serializeNode n).take i) = Except.error PErr.truncated := by
  have h := Consumes_parseNodeAux n hwf
  constructor
  · have hok := h.1 []
    rw [List.append_nil] at hok
    unfold parseNode
    rw [hok]
  · intro i hi
    unfold parseNode
    rw [h.2 i hi]

instance nodeWF_decidable (n : MNode) : Decidable (nodeWF n) := by
  unfold nodeWF
  infer_instance

theorem C8_parse_truncation_witness :
    nodeWF ⟨some [5], [(0, [1], List.replicate 32 0)]⟩ ∧
      (parseNode (serializeNode ⟨some [5], [(0, [1], List.replicate 32 0)]⟩) =
          Except.ok ⟨some [5], [(0, [1], List.replicate 32 0)]⟩ ∧
        ∀ i, i < (serializeNode ⟨some [5], [(0, [1], List.replicate 32 0)]⟩).length →
          parseNode ((serializeNode ⟨some [5], [(0, [1], List.replicate 32 0)]⟩).take i) =
            Except.error PErr.truncated) :=
  ⟨by decide, C8_parse_truncation ⟨some [5], [(0, [1], List.replicate 32 0)]⟩ (by decide)⟩
